import Mathlib

/-!
Verification of the ChatBot frontend streaming layer.

This file gives a shallow embedding, over `List Char`, of

  * `frontend/app/lib/stream-parser.ts`   (class `StreamParser`: `push`, `flush`),
  * `frontend/app/lib/llm-ui-events.ts`   (`UI_EVENT_PREFIX`, `isLLMUIEvent`,
    `parseLLMUIEvent`),
  * `frontend/app/lib/job-manager.ts`     (`startJob`, `abortJob`, `finishJob`,
    `hasActiveJob`, `sendAbort`),

and proves / refutes the specification claims about them.

JavaScript strings are modelled as `List Char`; `JSON.parse` is an external
runtime facility and is modelled as an explicit parameter
`jp : List Char → Option Json` of the definitions that call it (returning
`none` models the `JSON.parse` call throwing, which the source catches).
-/

namespace ChatBot

/-- Convert a string literal to the `List Char` representation used throughout. -/
def cs (s : String) : List Char := s.toList

/-! ## Basic scanning utilities

`leadsWith p s` models JavaScript `s.startsWith(p)`, `trailsWith p s` models
`s.endsWith(p)`, and `findSub? pat s` models `s.indexOf(pat)` (returning
`none` for `-1`). -/

/-- `leadsWith p s = true` iff `p` is an initial segment of `s`
(JS `s.startsWith(p)`). -/
def leadsWith : List Char → List Char → Bool
  | [], _ => true
  | _ :: _, [] => false
  | p :: ps, c :: rest => p == c && leadsWith ps rest

/-- `trailsWith t s = true` iff `t` is a final segment of `s` (JS `s.endsWith(t)`). -/
def trailsWith (t s : List Char) : Bool := leadsWith t.reverse s.reverse

/-- First index at which `pat` occurs in `s`, JS `s.indexOf(pat)` (with `none`
for `-1`). -/
def findSub? (pat : List Char) : List Char → Option Nat
  | [] => if leadsWith pat [] then some 0 else none
  | c :: rest =>
      if leadsWith pat (c :: rest) then some 0
      else (findSub? pat rest).map (· + 1)

/-- First index of the character `a` in `s`, JS `s.indexOf(a)`. -/
def findChar? (a : Char) (s : List Char) : Option Nat := findSub? [a] s

/-- A (nontrivial) occurrence of `pat` straddling the boundary between `u`
and `v`: a proper nonempty head of `pat` ends `v`'s left neighbour `u` and the
matching tail begins `v`. -/
def stradB (pat u v : List Char) : Bool :=
  (List.range pat.length).any fun k =>
    decide (0 < k) && trailsWith (pat.take k) u && leadsWith (pat.drop k) v

/-! ## JSON values and the UI-event decoder (`llm-ui-events.ts`)

`Json` models the values `JSON.parse` can return.  The decoded `LLMUIEvent`
returned by `parseLLMUIEvent` is the parsed JSON value itself (the TypeScript
code returns `parsed` after the `isLLMUIEvent` type-guard; no re-shaping
happens), so events are modelled as `Json` values accepted by the guard. -/

inductive Json where
  | jnull
  | jbool (b : Bool)
  | jnum (n : Int)
  | jstr (s : List Char)
  | jarr (elems : List Json)
  | jobj (fields : List (List Char × Json))

/-- Property access `obj["type"]` on a parsed JSON value: only objects have
fields.  `JSON.parse` never produces duplicate keys (later keys win during
parsing), so first-match lookup agrees with JS property access. -/
def lookupField : List (List Char × Json) → List Char → Option Json
  | [], _ => none
  | f :: rest, key => if f.1 = key then some f.2 else lookupField rest key

def getField? (j : Json) (key : List Char) : Option Json :=
  match j with
  | Json.jobj fields => lookupField fields key
  | _ => none

/-- The marker constant; the source names it UI_EVENT_PREFIX
(`export const UI_EVENT_PREFIX = "__UI_EVENT__"`). -/
def UI_EVENT_MARKER : List Char := cs "__UI_EVENT__"

/-- The enumerated event kinds of the `isLLMUIEvent` switch. -/
def allowedEventTypes : List (List Char) :=
  [cs "SYSTEM_MESSAGE", cs "REQUEST_METADATA", cs "METADATA_CONFIRMED",
   cs "PROGRESS", cs "MODEL_STAGE", cs "ERROR", cs "NET_RATE_LIMITED",
   cs "SOURCES", cs "ANSWER_CONFIDENCE"]

/-- The strict type guard `isLLMUIEvent(obj)`: the argument must be a truthy
`typeof "object"` value (which rules out `null` and primitives), its `type`
property must be a string, and that string must be one of the enumerated
kinds.  Arrays pass the `typeof` test but have no `type` property (`undefined`
is not a string), which the fall-through to `getField?` captures. -/
def isLLMUIEvent (j : Json) : Bool :=
  match getField? j (cs "type") with
  | some (Json.jstr t) => decide (t ∈ allowedEventTypes)
  | _ => false

/-- JavaScript whitespace (the `\s` regex class and `trimStart` set):
space, tab, LF, VT, FF, CR, NBSP, Ogham space, the U+2000 range, line and
paragraph separators, NNBSP, MMSP, ideographic space and BOM. -/
def isJsWS (c : Char) : Bool :=
  c == ' ' || c == '\t' || c == '\n' || c == '\x0b' || c == '\x0c' ||
  c == '\r' || c == '\xa0' || c == Char.ofNat 0x1680 ||
  (decide (0x2000 ≤ c.toNat) && decide (c.toNat ≤ 0x200a)) ||
  c == Char.ofNat 0x2028 || c == Char.ofNat 0x2029 || c == Char.ofNat 0x202f ||
  c == Char.ofNat 0x205f || c == Char.ofNat 0x3000 || c == Char.ofNat 0xfeff

def openBrace : Char := '\x7b'

/-- `parseLLMUIEvent(rawLine)` of `llm-ui-events.ts`, with `JSON.parse`
supplied as `jp` (`jp t = none` models the call throwing, which the
`try/catch` turns into `null`).

```
if (!rawLine) return null;
if (!rawLine.startsWith(UI_EVENT_PREFIX)) return null;
const jsonPart = rawLine.slice(UI_EVENT_PREFIX.length);
const trimmed = jsonPart.trimStart();
if (!trimmed.startsWith("\x7b")) return null;
try { const parsed = JSON.parse(trimmed);
      return isLLMUIEvent(parsed) ? parsed : null; }
catch { return null; }
``` -/
def parseLLMUIEvent (jp : List Char → Option Json) (rawLine : List Char) :
    Option Json :=
  if rawLine = [] then none
  else if leadsWith UI_EVENT_MARKER rawLine then
    let jsonPart := rawLine.drop UI_EVENT_MARKER.length
    let trimmed := jsonPart.dropWhile isJsWS
    if leadsWith [openBrace] trimmed then
      match jp trimmed with
      | some parsed => if isLLMUIEvent parsed then some parsed else none
      | none => none
    else none
  else none

/-! ## The stream parser (`stream-parser.ts`)

The parser state holds the raw lookahead `buffer` and the token-coalescing
`textBuffer`.  The `push` loop is modelled by `pushLoopF`, a fuel-indexed
structural recursion (each iteration that consumes a candidate line strictly
shrinks the buffer, so any fuel above the buffer length is enough; `pushLoop`
supplies `length + 1`).

Frames are instrumented: an emitted event frame additionally records the raw
line it was decoded from, and a text frame that arose from a marker-prefixed
line that failed to decode is tagged `failedLine`.  Erasing the
instrumentation (`eraseIFrame`) yields exactly the `StreamFrame` values the
TypeScript code produces; all claims about observable behaviour are stated on
the erased frames, the instrumentation is used to state conservation. -/

structure ParserState where
  buffer : List Char
  textBuffer : List Char
  deriving DecidableEq

def initState : ParserState := ⟨[], []⟩

inductive IFrame where
  | text (value : List Char)
  | event (line : List Char) (value : Json)
  | failedLine (line : List Char)

/-- The source's `StreamFrame`: `{type:"text"}` or `{type:"event"}`. -/
inductive StreamFrame where
  | text (value : List Char)
  | event (value : Json)

def eraseIFrame : IFrame → StreamFrame
  | IFrame.text v => StreamFrame.text v
  | IFrame.event _ v => StreamFrame.event v
  | IFrame.failedLine l => StreamFrame.text l

/-- Semantics of the flush heuristic regex test
`/[\s.,!?]\s*$/.test(textBuffer)`: the pattern is anchored at the end and
`\s*` may be empty, so it matches exactly when the string is nonempty and its
last character is in the class `[\s.,!?]` (any trailing run of whitespace
ends in a `\s` character, which is itself in the class). -/
def flushTest (tb : List Char) : Bool :=
  match tb.getLast? with
  | some c => isJsWS c || c == '.' || c == ',' || c == '!' || c == '?'
  | none => false

/-- `shouldFlush` of `push`: `textBuffer.length > 20 || /[\s.,!?]\s*$/.test(...)`. -/
def shouldFlush (tb : List Char) : Bool := decide (tb.length > 20) || flushTest tb

/-- The `while (true)` loop body of `StreamParser.push`, operating on
`(buffer, textBuffer)` after the chunk has been appended:

* no marker in the buffer: move everything into the text buffer, emit it as a
  text frame iff `shouldFlush`, stop;
* marker at `i > 0`: emit the text buffer plus the text before the marker as
  one text frame, clear the text buffer, drop to the marker;
* marker with no newline after it: stop and wait for more data;
* otherwise: slice out the line up to the newline, drop the newline, decode
  the line with `parseLLMUIEvent` (event frame on success, text frame with the
  line otherwise — instrumented as `failedLine`), and loop. -/
def pushLoopF (jp : List Char → Option Json) :
    Nat → List Char → List Char → List IFrame × ParserState
  | 0, buf, tb => ([], ⟨buf, tb⟩)
  | fuel + 1, buf, tb =>
    match findSub? UI_EVENT_MARKER buf with
    | none =>
        let tb2 := tb ++ buf
        if shouldFlush tb2 then ([IFrame.text tb2], ⟨[], []⟩)
        else ([], ⟨[], tb2⟩)
    | some i =>
        let preFrames : List IFrame :=
          if 0 < i then [IFrame.text (tb ++ buf.take i)] else []
        let tb1 := if 0 < i then [] else tb
        let buf1 := buf.drop i
        match findChar? '\n' buf1 with
        | none => (preFrames, ⟨buf1, tb1⟩)
        | some n =>
            let line := buf1.take n
            let rest := buf1.drop (n + 1)
            let lineFrame :=
              match parseLLMUIEvent jp line with
              | some evt => IFrame.event line evt
              | none => IFrame.failedLine line
            let res := pushLoopF jp fuel rest tb1
            (preFrames ++ lineFrame :: res.1, res.2)

/-- `StreamParser.push(rawChunk)` for a non-null chunk (instrumented frames).
`push` returns `[]` immediately on `""`; otherwise it appends the chunk to
the buffer and runs the loop. -/
def pushI (jp : List Char → Option Json) (σ : ParserState) (chunk : List Char) :
    List IFrame × ParserState :=
  if chunk = [] then ([], σ)
  else pushLoopF jp ((σ.buffer ++ chunk).length + 1) (σ.buffer ++ chunk) σ.textBuffer

/-- `StreamParser.push(rawChunk)`, observable frames. -/
def push (jp : List Char → Option Json) (σ : ParserState) (chunk : List Char) :
    List StreamFrame × ParserState :=
  ((pushI jp σ chunk).1.map eraseIFrame, (pushI jp σ chunk).2)

/-- `StreamParser.push` including the `rawChunk == null` guard
(`none` models `null`/`undefined`). -/
def pushNullable (jp : List Char → Option Json) (σ : ParserState)
    (chunk : Option (List Char)) : List StreamFrame × ParserState :=
  match chunk with
  | none => ([], σ)
  | some c => push jp σ c

/-- `StreamParser.flush()`: emit the text buffer (if nonempty) as a text
frame, then the raw buffer (if nonempty) as a text frame, and clear both. -/
def flushI (σ : ParserState) : List IFrame × ParserState :=
  ((if σ.textBuffer ≠ [] then [IFrame.text σ.textBuffer] else []) ++
   (if σ.buffer ≠ [] then [IFrame.text σ.buffer] else []),
   ⟨[], []⟩)

def flush (σ : ParserState) : List StreamFrame × ParserState :=
  ((flushI σ).1.map eraseIFrame, (flushI σ).2)

/-- Push a sequence of chunks, collecting all frames in emission order. -/
def runPushesI (jp : List Char → Option Json) :
    ParserState → List (List Char) → List IFrame × ParserState
  | σ, [] => ([], σ)
  | σ, c :: rest =>
      let r1 := pushI jp σ c
      let r2 := runPushesI jp r1.2 rest
      (r1.1 ++ r2.1, r2.2)

/-- Push all chunks from the fresh state, then flush (instrumented). -/
def runStreamI (jp : List Char → Option Json) (chunks : List (List Char)) :
    List IFrame × ParserState :=
  let r := runPushesI jp initState chunks
  (r.1 ++ (flushI r.2).1, (flushI r.2).2)

/-- Push all chunks from the fresh state, then flush: the full observable
frame sequence of one streaming session. -/
def runStream (jp : List Char → Option Json) (chunks : List (List Char)) :
    List StreamFrame :=
  (runStreamI jp chunks).1.map eraseIFrame

/-- Concatenation of the values of all text frames, event frames excluded. -/
def textConcat : List StreamFrame → List Char
  | [] => []
  | StreamFrame.text v :: fs => v ++ textConcat fs
  | StreamFrame.event _ :: fs => textConcat fs

/-- Same, on instrumented frames. -/
def iTextConcat : List IFrame → List Char
  | [] => []
  | IFrame.text v :: fs => v ++ iTextConcat fs
  | IFrame.event _ _ :: fs => iTextConcat fs
  | IFrame.failedLine l :: fs => l ++ iTextConcat fs

/-- Reconstruction of the consumed input from instrumented frames: text
frames contribute their value, consumed candidate lines contribute the line
plus the newline that terminated them. -/
def iRebuild : List IFrame → List Char
  | [] => []
  | IFrame.text v :: fs => v ++ iRebuild fs
  | IFrame.event l _ :: fs => l ++ '\n' :: iRebuild fs
  | IFrame.failedLine l :: fs => l ++ '\n' :: iRebuild fs

/-- The sequence of candidate event lines the parser would consume from a
complete input, and the residual buffer: the line-consumption skeleton of
`pushLoopF` (which does not depend on the text buffer or on decode results). -/
def scanF : Nat → List Char → List (List Char) × List Char
  | 0, buf => ([], buf)
  | fuel + 1, buf =>
    match findSub? UI_EVENT_MARKER buf with
    | none => ([], [])
    | some i =>
        let buf1 := buf.drop i
        match findChar? '\n' buf1 with
        | none => ([], buf1)
        | some n =>
            let res := scanF fuel (buf1.drop (n + 1))
            (buf1.take n :: res.1, res.2)

/-- The candidate event lines of a complete input. -/
def candLines (s : List Char) : List (List Char) := (scanF (s.length + 1) s).1

/-! ## The job manager (`job-manager.ts`)

State: the module-level `currentChatJob` plus a counter modelling fresh
`AbortController` allocation.  Side effects (aborting a controller, the
best-effort `fetch(API_BASE + "/abort")` of `sendAbort`) are recorded in an
effect list in program order. -/

structure JobHandle where
  controllerId : Nat
  sessionId : List Char
  active : Bool
  deriving DecidableEq

structure JMState where
  currentChatJob : Option JobHandle
  nextControllerId : Nat
  deriving DecidableEq

inductive JMEffect where
  | controllerAbort (controllerId : Nat) (reason : List Char)
  | remoteAbort (sessionId : List Char)
  deriving DecidableEq

/-- `sendAbort(sessionId)`: a single best-effort POST to the backend abort
endpoint (errors are swallowed, so it has no other observable effect). -/
def sendAbort (sessionId : List Char) : List JMEffect :=
  [JMEffect.remoteAbort sessionId]

/-- `abortJob(reason)`: no-op when no chat job is present; otherwise abort
the controller, notify the backend via `sendAbort`, and clear the record.
(The source also sets `.active = false` on the record it is about to drop;
the record is unreachable afterwards, so this is not observable.) -/
def abortJob (σ : JMState) (reason : List Char) : JMState × List JMEffect :=
  match σ.currentChatJob with
  | none => (σ, [])
  | some job =>
      ({ σ with currentChatJob := none },
       JMEffect.controllerAbort job.controllerId reason :: sendAbort job.sessionId)

/-- `startJob(sessionId)`: abort any previous chat job first (synchronously),
then install a fresh handle with a fresh controller and return the
controller (modelled by its id). -/
def startJob (σ : JMState) (sessionId : List Char) :
    Nat × JMState × List JMEffect :=
  let r := if (σ.currentChatJob).isSome then abortJob σ (cs "superseded") else (σ, [])
  let controller := r.1.nextControllerId
  (controller,
   { currentChatJob := some ⟨controller, sessionId, true⟩,
     nextControllerId := controller + 1 },
   r.2)

/-- `finishJob()`: clear the record without any effect. -/
def finishJob (σ : JMState) : JMState × List JMEffect :=
  match σ.currentChatJob with
  | none => (σ, [])
  | some _ => ({ σ with currentChatJob := none }, [])

/-- `hasActiveJob()`: `Boolean(currentChatJob?.active)`. -/
def hasActiveJob (σ : JMState) : Bool :=
  match σ.currentChatJob with
  | none => false
  | some job => job.active

/-! ## Auxiliary predicates and witness decoders -/

/-- Is the frame a text frame? -/
def isTextFrame : StreamFrame → Bool
  | StreamFrame.text _ => true
  | StreamFrame.event _ => false

/-- Text frames with nonempty values; event frames are unconstrained. -/
def goodSFrame : StreamFrame → Bool
  | StreamFrame.text v => decide (v ≠ [])
  | StreamFrame.event _ => true

def goodIFrame : IFrame → Bool
  | IFrame.text v => decide (v ≠ [])
  | IFrame.failedLine l => decide (l ≠ [])
  | IFrame.event _ _ => true

def isRemoteAbortEff : JMEffect → Bool
  | JMEffect.remoteAbort _ => true
  | _ => false

def isCtrlAbortEff : JMEffect → Bool
  | JMEffect.controllerAbort _ _ => true
  | _ => false

/-- Push a sequence of possibly-null chunks (the `rawChunk == null` guard),
collecting all frames, then flush. -/
def runPushesN (jp : List Char → Option Json) :
    ParserState → List (Option (List Char)) → List StreamFrame × ParserState
  | σ, [] => ([], σ)
  | σ, c :: rest =>
      let r1 := pushNullable jp σ c
      let r2 := runPushesN jp r1.2 rest
      (r1.1 ++ r2.1, r2.2)

def runStreamN (jp : List Char → Option Json)
    (chunks : List (Option (List Char))) : List StreamFrame :=
  (runPushesN jp initState chunks).1 ++ (flush (runPushesN jp initState chunks).2).1

/-- No chunk boundary falls strictly inside an occurrence of the event
marker: for every interior split point of the chunk list, no proper nonempty
head of the marker ends the left part while the matching tail begins the
right part. -/
def splitsOkB (chunks : List (List Char)) : Bool :=
  (List.range chunks.length).all fun i =>
    decide (i = 0) || !stradB UI_EVENT_MARKER (chunks.take i).flatten (chunks.drop i).flatten

/-- Every candidate event line of the complete stream decodes successfully. -/
def allCandidatesDecode (jp : List Char → Option Json) (s : List Char) : Bool :=
  (candLines s).all fun l => (parseLLMUIEvent jp l).isSome

/-- A trivial `JSON.parse` model that always throws (never needed on the
inputs it is used with). -/
def jp0 : List Char → Option Json := fun _ => none

/-- `JSON.parse` behaviour on the single input `{"type":"PROGRESS"}`:
an object with a `type` field and nothing else. -/
def jpPROG : List Char → Option Json := fun t =>
  if t = cs "\x7b\"type\":\"PROGRESS\"\x7d" then
    some (Json.jobj [(cs "type", Json.jstr (cs "PROGRESS"))])
  else none

/-- `JSON.parse` behaviour on the single input `{"type":"ERROR","message":"x"}`. -/
def jpERR : List Char → Option Json := fun t =>
  if t = cs "\x7b\"type\":\"ERROR\",\"message\":\"x\"\x7d" then
    some (Json.jobj [(cs "type", Json.jstr (cs "ERROR")),
                     (cs "message", Json.jstr (cs "x"))])
  else none

/-- The raw event line whose JSON body is `{"type":"ERROR","message":"x"}`. -/
def lineERR : List Char := cs "__UI_EVENT__\x7b\"type\":\"ERROR\",\"message\":\"x\"\x7d"

/-- The raw event line whose JSON body is `{"type":"PROGRESS"}` (a PROGRESS
event lacking its required numeric `value` field). -/
def linePROG : List Char := cs "__UI_EVENT__\x7b\"type\":\"PROGRESS\"\x7d"


/-! ## Scanning-utility lemmas -/

theorem leadsWith_iff (p s : List Char) :
    leadsWith p s = true ↔ ∃ t, s = p ++ t := by
  induction p generalizing s with
  | nil => simp [leadsWith]
  | cons c p ih =>
      cases s with
      | nil => simp [leadsWith]
      | cons a s =>
          simp only [leadsWith, Bool.and_eq_true, beq_iff_eq, ih, List.cons_append]
          constructor
          · rintro ⟨rfl, t, rfl⟩; exact ⟨t, rfl⟩
          · rintro ⟨t, h⟩
            injection h with h1 h2
            exact ⟨h1.symm, t, h2⟩

theorem leadsWith_refl (p : List Char) : leadsWith p p = true := by
  rw [leadsWith_iff]; exact ⟨[], by simp⟩

theorem leadsWith_length {p s : List Char} (h : leadsWith p s = true) :
    p.length ≤ s.length := by
  rw [leadsWith_iff] at h
  obtain ⟨t, rfl⟩ := h
  simp [List.length_append]

theorem leadsWith_append_of {p u : List Char} (v : List Char)
    (h : leadsWith p u = true) : leadsWith p (u ++ v) = true := by
  rw [leadsWith_iff] at h ⊢
  obtain ⟨t, rfl⟩ := h
  exact ⟨t ++ v, by simp⟩

theorem trailsWith_iff (t s : List Char) :
    trailsWith t s = true ↔ ∃ r, s = r ++ t := by
  unfold trailsWith
  rw [leadsWith_iff]
  constructor
  · rintro ⟨q, hq⟩
    refine ⟨q.reverse, ?_⟩
    have := congrArg List.reverse hq
    simpa using this
  · rintro ⟨r, rfl⟩
    exact ⟨r.reverse, by simp⟩

/-- If `p` is a prefix of `u ++ v` and fits inside `u`, it is a prefix of `u`. -/
theorem leadsWith_app_short {p u : List Char} (v : List Char)
    (hle : p.length ≤ u.length) :
    leadsWith p (u ++ v) = leadsWith p u := by
  induction p generalizing u with
  | nil => simp [leadsWith]
  | cons c p ih =>
      cases u with
      | nil => simp at hle
      | cons a u =>
          simp only [List.cons_append, leadsWith]
          have huv : u.append v = u ++ v := rfl
          rw [huv, ih (by simpa using Nat.le_of_succ_le_succ hle)]

/-- If `p` is a prefix of `u ++ v` but is longer than `u`, then `p` starts with
all of `u` and its remainder is a prefix of `v`. -/
theorem leadsWith_app_long {p u v : List Char} (hlt : u.length < p.length)
    (h : leadsWith p (u ++ v) = true) :
    p.take u.length = u ∧ leadsWith (p.drop u.length) v = true := by
  rw [leadsWith_iff] at h
  obtain ⟨t, ht⟩ := h
  have hp : p = p.take u.length ++ p.drop u.length := (List.take_append_drop _ _).symm
  constructor
  · -- both are length-u.length prefixes of the same list
    have h1 : u ++ v = p.take u.length ++ (p.drop u.length ++ t) := by
      rw [← List.append_assoc, ← hp]; exact ht
    have hlen : (p.take u.length).length = u.length := by
      simp [List.length_take, Nat.min_eq_left (Nat.le_of_lt hlt)]
    have := congrArg (List.take u.length) h1
    simpa [List.take_left', hlen] using this.symm
  · have h1 : u ++ v = p.take u.length ++ (p.drop u.length ++ t) := by
      rw [← List.append_assoc, ← hp]; exact ht
    have hlen : (p.take u.length).length = u.length := by
      simp [List.length_take, Nat.min_eq_left (Nat.le_of_lt hlt)]
    have h2 := congrArg (List.drop u.length) h1
    rw [List.drop_left' rfl, List.drop_left' hlen] at h2
    rw [leadsWith_iff]
    exact ⟨t, h2⟩

theorem take_append_le {α : Type} (u v : List α) {j : Nat} (h : j ≤ u.length) :
    (u ++ v).take j = u.take j := by
  rw [List.take_append_of_le_length h]

theorem drop_append_le {α : Type} (u v : List α) {j : Nat} (h : j ≤ u.length) :
    (u ++ v).drop j = u.drop j ++ v := by
  rw [List.drop_append_of_le_length h]

theorem drop_append_add {α : Type} (u v : List α) (m : Nat) :
    (u ++ v).drop (u.length + m) = v.drop m := List.drop_append m

theorem findSub?_cons (pat : List Char) (c : Char) (rest : List Char) :
    findSub? pat (c :: rest) =
      if leadsWith pat (c :: rest) then some 0
      else (findSub? pat rest).map (· + 1) := rfl

theorem findSub?_none {pat s : List Char} (h : findSub? pat s = none) :
    ∀ j, leadsWith pat (s.drop j) = false := by
  induction s with
  | nil =>
      intro j
      simp only [findSub?] at h
      split at h
      · exact absurd h (by simp)
      · simpa [List.drop_nil] using by
          rename_i hl; exact Bool.eq_false_iff.mpr (by simp [hl])
  | cons c rest ih =>
      intro j
      simp only [findSub?] at h
      split at h
      · exact absurd h (by simp)
      · rename_i hl
        have hrest : findSub? pat rest = none := by
          cases hr : findSub? pat rest with
          | none => rfl
          | some k => rw [hr] at h; simp at h
        cases j with
        | zero => simpa using Bool.eq_false_iff.mpr (by simp [hl])
        | succ j => simpa using ih hrest j

theorem findSub?_some_leads {pat s : List Char} {i : Nat}
    (h : findSub? pat s = some i) : leadsWith pat (s.drop i) = true := by
  induction s generalizing i with
  | nil =>
      simp only [findSub?] at h
      split at h
      · rename_i hl
        injection h with h; subst h; simpa using hl
      · exact absurd h (by simp)
  | cons c rest ih =>
      simp only [findSub?] at h
      split at h
      · rename_i hl
        injection h with h; subst h; simpa using hl
      · cases hr : findSub? pat rest with
        | none => rw [hr] at h; simp at h
        | some k =>
            rw [hr] at h; simp only [Option.map_some'] at h
            injection h with h; subst h
            simpa using ih hr

theorem findSub?_some_min {pat s : List Char} {i : Nat}
    (h : findSub? pat s = some i) :
    ∀ j, j < i → leadsWith pat (s.drop j) = false := by
  induction s generalizing i with
  | nil =>
      intro j hj
      simp only [findSub?] at h
      split at h
      · injection h with h; omega
      · exact absurd h (by simp)
  | cons c rest ih =>
      intro j hj
      simp only [findSub?] at h
      split at h
      · injection h with h; omega
      · rename_i hl
        cases hr : findSub? pat rest with
        | none => rw [hr] at h; simp at h
        | some k =>
            rw [hr] at h; simp only [Option.map_some'] at h
            injection h with h; subst h
            cases j with
            | zero => simpa using Bool.eq_false_iff.mpr (by simp [hl])
            | succ j => simpa using ih hr j (by omega)

theorem findSub?_some_le {pat s : List Char} {i : Nat}
    (h : findSub? pat s = some i) : i ≤ s.length := by
  induction s generalizing i with
  | nil =>
      simp only [findSub?] at h
      split at h
      · injection h with h; omega
      · exact absurd h (by simp)
  | cons c rest ih =>
      simp only [findSub?] at h
      split at h
      · injection h with h; subst h; simp
      · cases hr : findSub? pat rest with
        | none => rw [hr] at h; simp at h
        | some k =>
            rw [hr] at h; simp only [Option.map_some'] at h
            injection h with h; subst h
            have := ih hr
            simp only [List.length_cons]
            omega

theorem findSub?_some_add_le {pat s : List Char} {i : Nat}
    (h : findSub? pat s = some i) : i + pat.length ≤ s.length := by
  have h1 := findSub?_some_leads h
  have h2 := leadsWith_length h1
  have h3 := findSub?_some_le h
  rw [List.length_drop] at h2
  omega

theorem findSub?_of_leads {pat s : List Char} (h : leadsWith pat s = true) :
    findSub? pat s = some 0 := by
  cases s with
  | nil => simp [findSub?, h]
  | cons c rest => simp [findSub?, h]

/-- First occurrences are stable under extension on the right. -/
theorem findSub?_append_of_some {pat u : List Char} {i : Nat} (v : List Char)
    (h : findSub? pat u = some i) : findSub? pat (u ++ v) = some i := by
  induction u generalizing i with
  | nil =>
      simp only [findSub?] at h
      split at h
      · rename_i hl
        injection h with h; subst h
        have : pat = [] := by
          cases pat with
          | nil => rfl
          | cons p ps => simp [leadsWith] at hl
        subst this
        exact findSub?_of_leads (by simp [leadsWith_iff])
      · exact absurd h (by simp)
  | cons c rest ih =>
      simp only [findSub?] at h
      split at h
      · rename_i hl
        injection h with h; subst h
        exact findSub?_of_leads (by
          have := leadsWith_append_of v hl
          simpa using this)
      · rename_i hl
        cases hr : findSub? pat rest with
        | none => rw [hr] at h; simp at h
        | some k =>
            rw [hr] at h; simp only [Option.map_some'] at h
            injection h with h; subst h
            have hlen : pat.length ≤ (c :: rest).length := by
              have := findSub?_some_add_le hr
              simp only [List.length_cons]; omega
            have hfalse : leadsWith pat (c :: (rest ++ v)) = false := by
              have h1 : leadsWith pat ((c :: rest) ++ v) = leadsWith pat (c :: rest) :=
                leadsWith_app_short v hlen
              have h2 : (c :: rest) ++ v = c :: (rest ++ v) := rfl
              rw [h2] at h1
              rw [h1]
              exact Bool.eq_false_iff.mpr (by simp [hl])
            have h2 : (c :: rest) ++ v = c :: (rest ++ v) := rfl
            rw [h2, findSub?_cons, hfalse]
            simp [ih hr]

theorem stradB_eq_false_iff (pat u v : List Char) :
    stradB pat u v = false ↔
      ∀ k, 0 < k → k < pat.length →
        ¬(trailsWith (pat.take k) u = true ∧ leadsWith (pat.drop k) v = true) := by
  simp only [stradB, List.any_eq_false, List.mem_range, Bool.and_eq_true,
    decide_eq_true_eq]
  constructor
  · intro h k hk hklen hcon
    exact h k hklen ⟨⟨hk, hcon.1⟩, hcon.2⟩
  · intro h k hklen hcon
    exact h k hcon.1.1 hklen ⟨hcon.1.2, hcon.2⟩

theorem trailsWith_of_trailsWith_suffix {t u₀ u : List Char}
    (hsuf : ∃ w, u = w ++ u₀) (h : trailsWith t u₀ = true) :
    trailsWith t u = true := by
  rw [trailsWith_iff] at h ⊢
  obtain ⟨r, rfl⟩ := h
  obtain ⟨w, rfl⟩ := hsuf
  exact ⟨w ++ r, by simp⟩

theorem stradB_of_suffix {pat u₀ u v : List Char}
    (hsuf : ∃ w, u = w ++ u₀) (h : stradB pat u v = false) :
    stradB pat u₀ v = false := by
  rw [stradB_eq_false_iff] at h ⊢
  intro k hk hklen hcon
  exact h k hk hklen ⟨trailsWith_of_trailsWith_suffix hsuf hcon.1, hcon.2⟩

/-- With no occurrence inside `u` and no occurrence straddling the boundary,
the first occurrence of `pat` in `u ++ v` is the first occurrence in `v`,
shifted. -/
theorem findSub?_append_of_none {pat u : List Char} (v : List Char)
    (hnone : findSub? pat u = none) (hstr : stradB pat u v = false) :
    findSub? pat (u ++ v) = (findSub? pat v).map (u.length + ·) := by
  induction u with
  | nil =>
      simp only [List.nil_append, List.length_nil]
      cases hv : findSub? pat v with
      | none => simp
      | some m => simp
  | cons c rest ih =>
      have hl : leadsWith pat (c :: rest) = false := by
        have := findSub?_none hnone 0
        simpa using this
      have hrest : findSub? pat rest = none := by
        simp only [findSub?] at hnone
        split at hnone
        · exact absurd hnone (by simp)
        · cases hr : findSub? pat rest with
          | none => rfl
          | some k => rw [hr] at hnone; simp at hnone
      have hstr' : stradB pat rest v = false :=
        stradB_of_suffix ⟨[c], rfl⟩ hstr
      have hfalse : leadsWith pat (c :: (rest ++ v)) = false := by
        by_contra hcon
        have htrue : leadsWith pat ((c :: rest) ++ v) = true := by
          show leadsWith pat (c :: (rest ++ v)) = true
          cases hb : leadsWith pat (c :: (rest ++ v)) with
          | true => rfl
          | false => exact absurd hb hcon
        rcases Nat.lt_or_ge ((c :: rest).length) pat.length with hlt | hge
        · have hlong := leadsWith_app_long (u := c :: rest) hlt htrue
          have hk : 0 < (c :: rest).length := by simp
          rw [stradB_eq_false_iff] at hstr
          refine hstr (c :: rest).length hk hlt ⟨?_, hlong.2⟩
          rw [trailsWith_iff]
          exact ⟨[], by simpa using hlong.1.symm⟩
        · have hshort := leadsWith_app_short (u := c :: rest) v hge
          rw [hshort] at htrue
          rw [htrue] at hl
          exact absurd hl (by simp)
      have h2 : (c :: rest) ++ v = c :: (rest ++ v) := rfl
      rw [h2, findSub?_cons, hfalse]
      rw [if_neg (by simp)]
      rw [ih hrest hstr']
      cases hv : findSub? pat v with
      | none => simp
      | some m =>
          simp only [Option.map_some', Option.map_map]
          congr 1
          simp only [List.length_cons]
          omega

/-! ## Frame-list lemmas -/

theorem textConcat_append (a b : List StreamFrame) :
    textConcat (a ++ b) = textConcat a ++ textConcat b := by
  induction a with
  | nil => simp [textConcat]
  | cons f fs ih => cases f <;> simp [textConcat, ih]

theorem iTextConcat_append (a b : List IFrame) :
    iTextConcat (a ++ b) = iTextConcat a ++ iTextConcat b := by
  induction a with
  | nil => simp [iTextConcat]
  | cons f fs ih => cases f <;> simp [iTextConcat, ih]

theorem iRebuild_append (a b : List IFrame) :
    iRebuild (a ++ b) = iRebuild a ++ iRebuild b := by
  induction a with
  | nil => simp [iRebuild]
  | cons f fs ih => cases f <;> simp [iRebuild, ih]

theorem textConcat_map_erase (fs : List IFrame) :
    textConcat (fs.map eraseIFrame) = iTextConcat fs := by
  induction fs with
  | nil => simp [textConcat, iTextConcat]
  | cons f fs ih => cases f <;> simp [textConcat, iTextConcat, eraseIFrame, ih]

/-! ## Claim C9 -/

/-- C9: Idempotent flush — after one call to `flush`, an immediate second
call returns an empty frame list; equivalently, `flush` on a parser whose
two buffers are already empty yields zero frames. -/
theorem claim9_flush_idempotent (σ : ParserState) :
    (flush ((flush σ).2)).1 = [] ∧ (flush initState).1 = [] :=
  ⟨rfl, rfl⟩

/-! ## Claim C3 -/

/-- C3 counterexample: `flush` does **not** attempt event decoding of the
trailing raw buffer.  With the stream ending exactly after a complete event
line missing only its final newline (a reachable state, produced here by a
single `push`), the line decodes successfully, yet `flush` emits it as a
literal text frame, not an event frame. -/
theorem claim3_counterexample :
    (parseLLMUIEvent jpERR lineERR).isSome = true ∧
    (push jpERR initState lineERR).2 = ⟨lineERR, []⟩ ∧
    (flush ⟨lineERR, []⟩).1 = [StreamFrame.text lineERR] ∧
    runStream jpERR [lineERR] = [StreamFrame.text lineERR] :=
  ⟨rfl, rfl, rfl, rfl⟩

/-- C3 as amended: for every parser state, `flush` emits only text frames
(it never attempts to decode the remaining raw buffer as an event); the
concatenation of the emitted values is exactly the pending-text buffer
followed by the raw buffer, and both buffers are empty afterwards. -/
theorem claim3_amended_flush_literal (σ : ParserState) :
    (flush σ).1.all isTextFrame = true ∧
    textConcat (flush σ).1 = σ.textBuffer ++ σ.buffer ∧
    (flush σ).2 = initState := by
  by_cases h1 : σ.textBuffer = [] <;> by_cases h2 : σ.buffer = [] <;>
    simp [flush, flushI, h1, h2, textConcat, isTextFrame, initState, eraseIFrame]

/-! ## Claim C2 -/

/-- C2 counterexample: a `PROGRESS` payload with no numeric `value` field is
**accepted**, not rejected.  `JSON.parse` on the line's body yields an object
whose only field is `type: "PROGRESS"` (so the required `value` is absent),
and `parseLLMUIEvent` returns it as an event instead of `null`. -/
theorem claim2_counterexample :
    getField? (Json.jobj [(cs "type", Json.jstr (cs "PROGRESS"))]) (cs "value") =
      none ∧
    parseLLMUIEvent jpPROG linePROG =
      some (Json.jobj [(cs "type", Json.jstr (cs "PROGRESS"))]) ∧
    parseLLMUIEvent jpPROG linePROG ≠ none :=
  ⟨rfl, rfl, fun h => by
    rw [show parseLLMUIEvent jpPROG linePROG =
          some (Json.jobj [(cs "type", Json.jstr (cs "PROGRESS"))]) from rfl] at h
    exact Option.noConfusion h⟩

/-- C2 as amended: the decoder gates only on the `type` discriminant.  For
every line that passes the wire-shape checks and parses to a JSON value
whose `type` field is a string among the enumerated kinds, `parseLLMUIEvent`
returns that value — no required-field validation for the kind is performed,
so payloads lacking required fields (or with mistyped ones) are accepted. -/
theorem claim2_amended_type_only_gating
    (jp : List Char → Option Json) (rawLine : List Char) (j : Json)
    (t : List Char)
    (hm : leadsWith UI_EVENT_MARKER rawLine = true)
    (hb : leadsWith [openBrace]
        ((rawLine.drop UI_EVENT_MARKER.length).dropWhile isJsWS) = true)
    (hjp : jp ((rawLine.drop UI_EVENT_MARKER.length).dropWhile isJsWS) = some j)
    (ht : getField? j (cs "type") = some (Json.jstr t))
    (hmem : t ∈ allowedEventTypes) :
    parseLLMUIEvent jp rawLine = some j := by
  have hne : rawLine ≠ [] := by
    intro h; subst h
    exact absurd hm (by decide)
  have hguard : isLLMUIEvent j = true := by
    unfold isLLMUIEvent
    rw [ht]
    simpa using hmem
  simp [parseLLMUIEvent, hne, hm, hb, hjp, hguard]

/-- C2 witness: the amended theorem applied to the concrete
`PROGRESS`-without-`value` line. -/
theorem claim2_amended_witness :
    parseLLMUIEvent jpPROG linePROG =
      some (Json.jobj [(cs "type", Json.jstr (cs "PROGRESS"))]) :=
  claim2_amended_type_only_gating jpPROG linePROG
    (Json.jobj [(cs "type", Json.jstr (cs "PROGRESS"))]) (cs "PROGRESS")
    (by decide) (by decide) rfl rfl (by decide)

/-! ## Claim C6 -/

/-- C6: Decoder totality and wire-shape gating.  For every `JSON.parse`
behaviour and every input line, `parseLLMUIEvent` returns either a decoded
event or `null` (it is a total function); and it returns `null` whenever the
line does not start with the exact marker, or the remainder after the marker
(leading whitespace stripped) does not begin with a brace, or `JSON.parse`
fails on that remainder. -/
theorem claim6_totality_and_gating (jp : List Char → Option Json)
    (rawLine : List Char) :
    ((parseLLMUIEvent jp rawLine).isSome = true ∨
      parseLLMUIEvent jp rawLine = none) ∧
    (leadsWith UI_EVENT_MARKER rawLine = false →
      parseLLMUIEvent jp rawLine = none) ∧
    (leadsWith [openBrace]
        ((rawLine.drop UI_EVENT_MARKER.length).dropWhile isJsWS) = false →
      parseLLMUIEvent jp rawLine = none) ∧
    (jp ((rawLine.drop UI_EVENT_MARKER.length).dropWhile isJsWS) = none →
      parseLLMUIEvent jp rawLine = none) := by
  refine ⟨?_, ?_, ?_, ?_⟩
  · cases h : parseLLMUIEvent jp rawLine with
    | none => exact Or.inr rfl
    | some j => exact Or.inl (by simp [h])
  · intro hm
    by_cases hr : rawLine = []
    · simp [parseLLMUIEvent, hr]
    · simp [parseLLMUIEvent, hr, hm]
  · intro hb
    by_cases hr : rawLine = []
    · simp [parseLLMUIEvent, hr]
    · by_cases hm : leadsWith UI_EVENT_MARKER rawLine = true
      · simp [parseLLMUIEvent, hr, hm, hb]
      · simp [parseLLMUIEvent, hr, hm]
  · intro hjp
    by_cases hr : rawLine = []
    · simp [parseLLMUIEvent, hr]
    · by_cases hm : leadsWith UI_EVENT_MARKER rawLine = true
      · by_cases hb : leadsWith [openBrace]
            ((rawLine.drop UI_EVENT_MARKER.length).dropWhile isJsWS) = true
        · simp [parseLLMUIEvent, hr, hm, hb, hjp]
        · simp [parseLLMUIEvent, hr, hm, hb]
      · simp [parseLLMUIEvent, hr, hm]

/-- C6 witness: the gating conjuncts applied at concrete rejected lines —
no marker; marker but no brace after whitespace; marker and brace but
`JSON.parse` fails. -/
theorem claim6_witness :
    parseLLMUIEvent jp0 (cs "hello") = none ∧
    parseLLMUIEvent jp0 (cs "__UI_EVENT__bad") = none ∧
    parseLLMUIEvent jp0 (cs "__UI_EVENT__ \x7bnot json") = none :=
  ⟨(claim6_totality_and_gating jp0 (cs "hello")).2.1 (by decide),
   (claim6_totality_and_gating jp0 (cs "__UI_EVENT__bad")).2.2.1 (by decide),
   (claim6_totality_and_gating jp0 (cs "__UI_EVENT__ \x7bnot json")).2.2.2 rfl⟩

/-! ## Claims C5, C7, C8 -/

/-- C5: Single-flight property.  Starting a job while one is active performs
exactly one controller abort and exactly one remote abort notification (the
`abortJob` effects for the previous job, in program order, before the new
record is installed), installs a fresh handle with a fresh controller, and
returns that controller; and `hasActiveJob` is `false` immediately after
`finishJob` or `abortJob`. -/
theorem claim5_single_flight (σ : JMState) (sid : List Char) (job : JobHandle)
    (r : List Char) (hact : σ.currentChatJob = some job) :
    (startJob σ sid).2.2 =
      [JMEffect.controllerAbort job.controllerId (cs "superseded"),
       JMEffect.remoteAbort job.sessionId] ∧
    ((startJob σ sid).2.2.filter isCtrlAbortEff).length = 1 ∧
    ((startJob σ sid).2.2.filter isRemoteAbortEff).length = 1 ∧
    (startJob σ sid).2.1.currentChatJob = some ⟨σ.nextControllerId, sid, true⟩ ∧
    (startJob σ sid).1 = σ.nextControllerId ∧
    hasActiveJob (finishJob σ).1 = false ∧
    hasActiveJob (abortJob σ r).1 = false := by
  simp [startJob, abortJob, finishJob, hasActiveJob, hact, sendAbort,
    isCtrlAbortEff, isRemoteAbortEff]

/-- C5 witness: the single-flight theorem at a concrete state holding an
active job. -/
theorem claim5_witness :
    (startJob ⟨some ⟨7, cs "s1", true⟩, 8⟩ (cs "s2")).2.2 =
      [JMEffect.controllerAbort 7 (cs "superseded"),
       JMEffect.remoteAbort (cs "s1")] ∧
    (((startJob ⟨some ⟨7, cs "s1", true⟩, 8⟩ (cs "s2")).2.2.filter
        isCtrlAbortEff).length = 1) ∧
    (((startJob ⟨some ⟨7, cs "s1", true⟩, 8⟩ (cs "s2")).2.2.filter
        isRemoteAbortEff).length = 1) ∧
    (startJob ⟨some ⟨7, cs "s1", true⟩, 8⟩ (cs "s2")).2.1.currentChatJob =
      some ⟨8, cs "s2", true⟩ ∧
    (startJob ⟨some ⟨7, cs "s1", true⟩, 8⟩ (cs "s2")).1 = 8 ∧
    hasActiveJob (finishJob ⟨some ⟨7, cs "s1", true⟩, 8⟩).1 = false ∧
    hasActiveJob (abortJob ⟨some ⟨7, cs "s1", true⟩, 8⟩ (cs "user")).1 = false :=
  claim5_single_flight ⟨some ⟨7, cs "s1", true⟩, 8⟩ (cs "s2")
    ⟨7, cs "s1", true⟩ (cs "user") rfl

/-- C7: `finishJob` clears the active record (`hasActiveJob` becomes false)
with no effects — no remote abort notification and no controller abort; and
`startJob`'s remote notification arises only through its `abortJob` call
(when a previous job existed). -/
theorem claim7_finish_preserves_distinction (σ : JMState) (sid : List Char) :
    (finishJob σ).2 = [] ∧
    (finishJob σ).1.currentChatJob = none ∧
    hasActiveJob (finishJob σ).1 = false ∧
    (finishJob σ).2.filter isRemoteAbortEff = [] ∧
    (finishJob σ).2.filter isCtrlAbortEff = [] ∧
    (startJob σ sid).2.2 =
      (if (σ.currentChatJob).isSome then (abortJob σ (cs "superseded")).2
       else []) := by
  cases hσ : σ.currentChatJob with
  | none => simp [finishJob, startJob, hasActiveJob, hσ]
  | some job => simp [finishJob, startJob, hasActiveJob, hσ]

/-- C8: No-op abort — `abortJob` with no active job leaves the state
unchanged and produces no effects (no controller abort, no remote
notification; and, being total, it cannot throw). -/
theorem claim8_noop_abort (σ : JMState) (r : List Char)
    (h : σ.currentChatJob = none) :
    abortJob σ r = (σ, []) := by
  simp [abortJob, h]

/-- C8 witness: the no-op abort at a concrete empty state. -/
theorem claim8_witness :
    abortJob ⟨none, 3⟩ (cs "user") = (⟨none, 3⟩, []) :=
  claim8_noop_abort ⟨none, 3⟩ (cs "user") rfl

/-! ## Claim C10: no empty text frames -/

theorem leadsWith_mono {p q s : List Char} (hp : leadsWith p s = true)
    (hq : leadsWith q s = true) (hlen : p.length ≤ q.length) :
    leadsWith p q = true := by
  rw [leadsWith_iff] at hp hq ⊢
  obtain ⟨t, rfl⟩ := hp
  obtain ⟨t', h⟩ := hq
  refine ⟨q.drop p.length, ?_⟩
  have h1 := congrArg (List.take p.length) h
  rw [List.take_left' rfl, take_append_le _ _ hlen] at h1
  conv_lhs => rw [← List.take_append_drop p.length q, ← h1]

/-- The newline terminating a candidate line comes strictly after the
marker's first character. -/
theorem newline_pos_of_marker {buf1 : List Char} {n : Nat}
    (hmk : leadsWith UI_EVENT_MARKER buf1 = true)
    (hnl : findChar? '\n' buf1 = some n) : 0 < n := by
  rcases Nat.eq_zero_or_pos n with rfl | h
  · exfalso
    have h1 : leadsWith ['\n'] buf1 = true := by
      simpa using findSub?_some_leads hnl
    have h2 := leadsWith_mono h1 hmk (by decide)
    exact absurd h2 (by decide)
  · exact h

theorem shouldFlush_ne_nil {tb : List Char} (h : shouldFlush tb = true) :
    tb ≠ [] := by
  intro hnil; subst hnil
  exact absurd h (by decide)

theorem pushLoopF_good (jp : List Char → Option Json) (fuel : Nat) :
    ∀ buf tb, ((pushLoopF jp fuel buf tb).1.all goodIFrame) = true := by
  induction fuel with
  | zero => intro buf tb; simp [pushLoopF]
  | succ fuel ih =>
      intro buf tb
      rcases hfind : findSub? UI_EVENT_MARKER buf with _ | i
      · simp only [pushLoopF, hfind]
        by_cases hfl : shouldFlush (tb ++ buf) = true
        · have := shouldFlush_ne_nil hfl
          simp [hfl, goodIFrame, this]
        · simp [hfl]
      · have hbuflen : UI_EVENT_MARKER.length + i ≤ buf.length := by
          have := findSub?_some_add_le hfind; omega
        have hmk : leadsWith UI_EVENT_MARKER (buf.drop i) = true :=
          findSub?_some_leads hfind
        have hpre : ∀ h : 0 < i, (tb ++ buf.take i) ≠ [] := by
          intro hi hcon
          rcases List.append_eq_nil.mp hcon with ⟨-, htake⟩
          rcases List.take_eq_nil_iff.mp htake with h0 | hnil
          · omega
          · subst hnil; simp at hbuflen; omega
        rcases hnl : findChar? '\n' (buf.drop i) with _ | n
        · simp only [pushLoopF, hfind, hnl]
          by_cases hi : 0 < i
          · simp [hi, goodIFrame, hpre hi]
          · simp [hi]
        · have hn : 0 < n := newline_pos_of_marker hmk hnl
          have hline : (buf.drop i).take n ≠ [] := by
            intro hcon
            rcases List.take_eq_nil_iff.mp hcon with h0 | hnil
            · omega
            · rw [hnil] at hmk
              exact absurd hmk (by decide)
          simp only [pushLoopF, hfind, hnl]
          by_cases hi : 0 < i <;>
            cases hev : parseLLMUIEvent jp ((buf.drop i).take n) <;>
              simp [hi, goodIFrame, hpre, hline, ih, hev]

theorem erase_good {f : IFrame} (h : goodIFrame f = true) :
    goodSFrame (eraseIFrame f) = true := by
  cases f with
  | text v => simpa [goodIFrame, goodSFrame, eraseIFrame] using h
  | event l v => simp [goodSFrame, eraseIFrame]
  | failedLine l => simpa [goodIFrame, goodSFrame, eraseIFrame] using h

theorem push_good (jp : List Char → Option Json) (σ : ParserState)
    (c : List Char) : ((push jp σ c).1.all goodSFrame) = true := by
  unfold push pushI
  by_cases hc : c = []
  · simp [hc]
  · simp only [hc, if_neg, if_false]
    have h := pushLoopF_good jp ((σ.buffer ++ c).length + 1) (σ.buffer ++ c) σ.textBuffer
    rw [List.all_eq_true] at h ⊢
    intro f hf
    rw [List.mem_map] at hf
    obtain ⟨g, hg, rfl⟩ := hf
    exact erase_good (h g hg)

theorem flush_good (σ : ParserState) : ((flush σ).1.all goodSFrame) = true := by
  by_cases h1 : σ.textBuffer = [] <;> by_cases h2 : σ.buffer = [] <;>
    simp [flush, flushI, h1, h2, goodSFrame, eraseIFrame]

theorem runPushesN_good (jp : List Char → Option Json)
    (chunks : List (Option (List Char))) :
    ∀ σ, ((runPushesN jp σ chunks).1.all goodSFrame) = true := by
  induction chunks with
  | nil => intro σ; simp [runPushesN]
  | cons c rest ih =>
      intro σ
      cases c with
      | none => simpa [runPushesN, pushNullable] using ih _
      | some c =>
          simp only [runPushesN, pushNullable, List.all_append, Bool.and_eq_true]
          exact ⟨push_good jp σ c, ih _⟩

/-- C10 (implicit): the stream parser never emits an empty text frame.  For
every `JSON.parse` behaviour and every sequence of `push` calls (null and
empty chunks included) followed by `flush`, every emitted text frame carries
a non-empty value. -/
theorem claim10_no_empty_text_frames (jp : List Char → Option Json)
    (chunks : List (Option (List Char))) :
    (runStreamN jp chunks).all goodSFrame = true := by
  unfold runStreamN
  simp only [List.all_append, Bool.and_eq_true]
  exact ⟨runPushesN_good jp chunks initState, flush_good _⟩

/-! ## Claim C4: conservation -/

/-- A candidate line's newline splits the buffer as
`take n ++ '\n' :: drop (n+1)`. -/
theorem findChar?_decomp {a : Char} {s : List Char} {n : Nat}
    (h : findChar? a s = some n) :
    s = s.take n ++ a :: s.drop (n + 1) := by
  have h1 : leadsWith [a] (s.drop n) = true := findSub?_some_leads h
  rw [leadsWith_iff] at h1
  obtain ⟨t, ht⟩ := h1
  have h2 : s.drop (n + 1) = t := by
    have h3 : (s.drop n).drop 1 = t := by rw [ht]; rfl
    rw [List.drop_drop] at h3
    simpa [Nat.add_comm] using h3
  conv_lhs => rw [← List.take_append_drop n s, ht]
  rw [h2]
  rfl

/-- Conservation at the loop level, character counts: the reconstruction of
the emitted frames together with the final buffers holds exactly the
characters of the incoming text buffer plus the incoming raw buffer.
(Character counts rather than list equality: when a candidate line is
completed while coalesced text is still pending — possible when the marker
sits at offset 0 of a later chunk — the line's frame is emitted before the
pending text.) -/
theorem pushLoopF_rebuild_count (jp : List Char → Option Json) (fuel : Nat) :
    ∀ buf tb (a : Char),
      (iRebuild (pushLoopF jp fuel buf tb).1 ++
        ((pushLoopF jp fuel buf tb).2.textBuffer ++
          (pushLoopF jp fuel buf tb).2.buffer)).count a =
      (tb ++ buf).count a := by
  induction fuel with
  | zero => intro buf tb a; simp [pushLoopF, iRebuild]
  | succ fuel ih =>
      intro buf tb a
      rcases hfind : findSub? UI_EVENT_MARKER buf with _ | i
      · simp only [pushLoopF, hfind]
        by_cases hfl : shouldFlush (tb ++ buf) = true
        · simp [hfl, iRebuild]
        · simp [hfl, iRebuild]
      · rcases hnl : findChar? '\n' (buf.drop i) with _ | n
        · simp only [pushLoopF, hfind, hnl]
          by_cases hi : 0 < i
          · conv_rhs =>
              rw [show buf = buf.take i ++ buf.drop i from
                (List.take_append_drop i buf).symm]
            simp [hi, iRebuild, List.count_append, -List.drop_drop]
            try omega
          · have hi0 : i = 0 := by omega
            subst hi0
            simp [iRebuild]
        · -- a complete candidate line is consumed
          have hdecomp : buf.drop i =
              (buf.drop i).take n ++ '\n' :: (buf.drop i).drop (n + 1) :=
            findChar?_decomp hnl
          have e1 : buf = buf.take i ++
              ((buf.drop i).take n ++ '\n' :: (buf.drop i).drop (n + 1)) := by
            conv_lhs => rw [← List.take_append_drop i buf, hdecomp]
          simp only [pushLoopF, hfind, hnl]
          by_cases hi : 0 < i
          · have hIH := ih ((buf.drop i).drop (n + 1)) [] a
            simp only [List.count_append, List.count_nil, Nat.zero_add] at hIH
            conv_rhs => rw [e1]
            cases hev : parseLLMUIEvent jp ((buf.drop i).take n) <;>
              · simp [hev, hi, iRebuild_append, iRebuild, List.count_append,
                  List.count_cons, -List.drop_drop]
                omega
          · have hi0 : i = 0 := by omega
            subst hi0
            have hIH := ih ((buf.drop 0).drop (n + 1)) tb a
            simp only [List.count_append, List.drop_zero] at hIH
            conv_rhs => rw [e1]
            cases hev : parseLLMUIEvent jp ((buf.drop 0).take n) <;>
              · simp [hev, iRebuild_append, iRebuild, List.count_append,
                  List.count_cons, -List.drop_drop]
                omega

theorem pushI_rebuild_count (jp : List Char → Option Json) (σ : ParserState)
    (c : List Char) (a : Char) :
    (iRebuild (pushI jp σ c).1 ++
      ((pushI jp σ c).2.textBuffer ++ (pushI jp σ c).2.buffer)).count a =
    ((σ.textBuffer ++ σ.buffer) ++ c).count a := by
  unfold pushI
  by_cases hc : c = []
  · simp [hc, iRebuild]
  · simp only [hc, if_neg, if_false]
    have h := pushLoopF_rebuild_count jp ((σ.buffer ++ c).length + 1)
      (σ.buffer ++ c) σ.textBuffer a
    simp only [List.count_append] at h ⊢
    omega

theorem runPushesI_rebuild_count (jp : List Char → Option Json)
    (chunks : List (List Char)) :
    ∀ (σ : ParserState) (a : Char),
      (iRebuild (runPushesI jp σ chunks).1 ++
        ((runPushesI jp σ chunks).2.textBuffer ++
          (runPushesI jp σ chunks).2.buffer)).count a =
      ((σ.textBuffer ++ σ.buffer) ++ chunks.flatten).count a := by
  induction chunks with
  | nil => intro σ a; simp [runPushesI, iRebuild]
  | cons c rest ih =>
      intro σ a
      have h1 := pushI_rebuild_count jp σ c a
      have h2 := ih (pushI jp σ c).2 a
      simp only [runPushesI, iRebuild_append, List.flatten_cons,
        List.count_append] at h1 h2 ⊢
      omega

theorem flushI_rebuild (σ : ParserState) :
    iRebuild (flushI σ).1 = σ.textBuffer ++ σ.buffer := by
  by_cases h1 : σ.textBuffer = [] <;> by_cases h2 : σ.buffer = [] <;>
    simp [flushI, h1, h2, iRebuild]

/-- C4 as amended: no-loss up to candidate-line newlines and ordering.  For
every sequence of `push` calls followed by `flush`, the multiset of input
characters is exactly partitioned among the emitted frames: every character
appears in exactly one frame's literal text or is consumed by exactly one
marker-initiated candidate line (counting each such line's terminating
newline as consumed by it — for a successfully decoded line the whole line
plus newline becomes the event frame; for a line that fails to decode the
line is re-emitted as literal text and its newline is dropped).  The
observable frames are the erasure of the instrumented ones, and after
`flush` both internal buffers are empty. -/
theorem claim4_amended_conservation (jp : List Char → Option Json)
    (chunks : List (List Char)) :
    List.Perm (iRebuild (runStreamI jp chunks).1) chunks.flatten ∧
    runStream jp chunks = (runStreamI jp chunks).1.map eraseIFrame ∧
    (runStreamI jp chunks).2 = initState := by
  refine ⟨?_, rfl, rfl⟩
  rw [List.perm_iff_count]
  intro a
  unfold runStreamI
  simp only [iRebuild_append]
  rw [flushI_rebuild]
  have h := runPushesI_rebuild_count jp chunks initState a
  simp only [List.count_append, List.count_nil, initState] at h ⊢
  omega

/-- C4 counterexample: the original no-loss statement fails — the newline
terminating a marker-prefixed line that fails to decode is dropped.  Pushing
the 14-character input `__UI_EVENT__x\n` and flushing yields a single text
frame of 13 characters and no event frames, so the final `\n` appears in no
frame and was not consumed by any successfully decoded event line. -/
theorem claim4_counterexample :
    runStream jp0 [cs "__UI_EVENT__x\n"] =
      [StreamFrame.text (cs "__UI_EVENT__x")] ∧
    (cs "__UI_EVENT__x\n").length = 14 ∧
    textConcat (runStream jp0 [cs "__UI_EVENT__x\n"]) = cs "__UI_EVENT__x" ∧
    (cs "__UI_EVENT__x").length = 13 :=
  ⟨rfl, rfl, rfl, rfl⟩

/-! ## Claim C1: chunk-boundary invariance

The development below establishes, for any fuel above the buffer length,
that processing a stream in chunks agrees with processing it in one piece —
provided no chunk boundary splits a marker occurrence and every completed
candidate line decodes successfully (both necessary: see the
counterexample). -/

theorem findChar?_lt {a : Char} {s : List Char} {n : Nat}
    (h : findChar? a s = some n) : n < s.length := by
  have := findSub?_some_add_le h
  simp at this
  omega

theorem line_rest_lt {buf : List Char} {i n : Nat}
    (hnl : findChar? '\n' (buf.drop i) = some n) :
    ((buf.drop i).drop (n + 1)).length < buf.length := by
  have hn := findChar?_lt hnl
  have h1 : (buf.drop i).length ≤ buf.length := by
    simp [List.length_drop]
  simp only [List.length_drop] at hn ⊢
  omega

theorem pushLoopF_fuel_irrel (jp : List Char → Option Json) :
    ∀ f1 f2 buf tb, buf.length < f1 → buf.length < f2 →
      pushLoopF jp f1 buf tb = pushLoopF jp f2 buf tb := by
  intro f1
  induction f1 with
  | zero => intro f2 buf tb h1 h2; exact absurd h1 (by omega)
  | succ f1 ih =>
      intro f2 buf tb h1 h2
      cases f2 with
      | zero => exact absurd h2 (by omega)
      | succ f2 =>
          rcases hfind : findSub? UI_EVENT_MARKER buf with _ | i
          · simp only [pushLoopF, hfind]
          · rcases hnl : findChar? '\n' (buf.drop i) with _ | n
            · simp only [pushLoopF, hfind, hnl]
            · have hlen := line_rest_lt hnl
              simp only [pushLoopF, hfind, hnl]
              rw [ih f2 ((buf.drop i).drop (n + 1)) _ (by omega) (by omega)]

theorem scanF_fuel_irrel :
    ∀ f1 f2 buf, buf.length < f1 → buf.length < f2 →
      scanF f1 buf = scanF f2 buf := by
  intro f1
  induction f1 with
  | zero => intro f2 buf h1 h2; exact absurd h1 (by omega)
  | succ f1 ih =>
      intro f2 buf h1 h2
      cases f2 with
      | zero => exact absurd h2 (by omega)
      | succ f2 =>
          rcases hfind : findSub? UI_EVENT_MARKER buf with _ | i
          · simp only [scanF, hfind]
          · rcases hnl : findChar? '\n' (buf.drop i) with _ | n
            · simp only [scanF, hfind, hnl]
            · have hlen := line_rest_lt hnl
              simp only [scanF, hfind, hnl]
              rw [ih f2 ((buf.drop i).drop (n + 1)) (by omega) (by omega)]

/-- The final raw buffer of the loop is the scan residual (independent of
the text buffer and of decode outcomes). -/
theorem pushLoopF_buffer_eq_scan (jp : List Char → Option Json) :
    ∀ fuel buf tb,
      (pushLoopF jp fuel buf tb).2.buffer = (scanF fuel buf).2 := by
  intro fuel
  induction fuel with
  | zero => intro buf tb; simp [pushLoopF, scanF]
  | succ fuel ih =>
      intro buf tb
      rcases hfind : findSub? UI_EVENT_MARKER buf with _ | i
      · by_cases hfl : shouldFlush (tb ++ buf) = true <;>
          simp [pushLoopF, scanF, hfind, hfl]
      · rcases hnl : findChar? '\n' (buf.drop i) with _ | n
        · simp [pushLoopF, scanF, hfind, hnl]
        · simp only [pushLoopF, scanF, hfind, hnl]
          exact ih _ _

/-- The final raw buffer is empty or starts with the marker and holds no
newline (the loop always waits with the marker at offset 0). -/
theorem pushLoopF_resid_shape (jp : List Char → Option Json) :
    ∀ fuel buf tb,
      (pushLoopF jp fuel buf tb).2.buffer = [] ∨
        (leadsWith UI_EVENT_MARKER (pushLoopF jp fuel buf tb).2.buffer = true ∧
         findChar? '\n' (pushLoopF jp fuel buf tb).2.buffer = none) ∨
        fuel ≤ buf.length := by
  intro fuel
  induction fuel with
  | zero => intro buf tb; right; right; omega
  | succ fuel ih =>
      intro buf tb
      rcases hfind : findSub? UI_EVENT_MARKER buf with _ | i
      · left
        by_cases hfl : shouldFlush (tb ++ buf) = true <;>
          simp [pushLoopF, hfind, hfl]
      · rcases hnl : findChar? '\n' (buf.drop i) with _ | n
        · right; left
          constructor
          · simpa [pushLoopF, hfind, hnl] using findSub?_some_leads hfind
          · simp [pushLoopF, hfind, hnl]
        · rcases ih ((buf.drop i).drop (n + 1)) (if 0 < i then [] else tb) with h | h | h
          · left; simpa [pushLoopF, hfind, hnl] using h
          · right; left; simpa [pushLoopF, hfind, hnl] using h
          · have := line_rest_lt hnl
            right; right; omega

theorem stradB_singleton (a : Char) (u v : List Char) :
    stradB [a] u v = false := by
  simp [stradB]

theorem findChar?_append_of_some {a : Char} {u : List Char} {n : Nat}
    (v : List Char) (h : findChar? a u = some n) :
    findChar? a (u ++ v) = some n :=
  findSub?_append_of_some v h

theorem findChar?_append_of_none {a : Char} {u : List Char} (v : List Char)
    (h : findChar? a u = none) :
    findChar? a (u ++ v) = (findChar? a v).map (u.length + ·) :=
  findSub?_append_of_none v h (stradB_singleton a u v)

theorem candLines_none {s : List Char}
    (hfind : findSub? UI_EVENT_MARKER s = none) : candLines s = [] := by
  unfold candLines
  simp [scanF, hfind]

theorem candLines_no_newline {s : List Char} {i : Nat}
    (hfind : findSub? UI_EVENT_MARKER s = some i)
    (hnl : findChar? '\n' (s.drop i) = none) : candLines s = [] := by
  unfold candLines
  simp [scanF, hfind, hnl]

theorem candLines_step {s : List Char} {i n : Nat}
    (hfind : findSub? UI_EVENT_MARKER s = some i)
    (hnl : findChar? '\n' (s.drop i) = some n) :
    candLines s = (s.drop i).take n :: candLines ((s.drop i).drop (n + 1)) := by
  have hlt := line_rest_lt hnl
  unfold candLines
  conv_lhs => rw [show s.length + 1 = s.length + 1 from rfl]
  simp only [scanF, hfind, hnl]
  congr 1
  exact congrArg Prod.fst
    (scanF_fuel_irrel s.length (((s.drop i).drop (n + 1)).length + 1)
      ((s.drop i).drop (n + 1)) (by omega) (by omega))

/-- The suffix `drop j u` of `u` is a suffix. -/
theorem drop_is_suffix (u : List Char) (j : Nat) : ∃ w, u = w ++ u.drop j :=
  ⟨u.take j, (List.take_append_drop j u).symm⟩

/-- Scan decomposition across a safe boundary: the candidate lines of
`u ++ v` are those consumed inside `u` followed by those of the residual
joined with `v`, provided no marker occurrence straddles the boundary. -/
theorem candLines_append (fuel : Nat) :
    ∀ u v, u.length < fuel →
      stradB UI_EVENT_MARKER u v = false →
      candLines (u ++ v) = (scanF fuel u).1 ++ candLines ((scanF fuel u).2 ++ v) := by
  induction fuel with
  | zero => intro u v h; omega
  | succ fuel ih =>
      intro u v hlen hstr
      rcases hfind : findSub? UI_EVENT_MARKER u with _ | i
      · simp only [scanF, hfind, List.nil_append]
        have huv := findSub?_append_of_none v hfind hstr
        rcases hv : findSub? UI_EVENT_MARKER v with _ | m
        · rw [hv] at huv; simp only [Option.map_none'] at huv
          rw [candLines_none huv, candLines_none hv]
        · rw [hv] at huv; simp only [Option.map_some'] at huv
          have hdrop : (u ++ v).drop (u.length + m) = v.drop m :=
            drop_append_add u v m
          rcases hnl : findChar? '\n' (v.drop m) with _ | n
          · rw [candLines_no_newline huv (by rw [hdrop]; exact hnl),
              candLines_no_newline hv hnl]
          · rw [candLines_step huv (by rw [hdrop]; exact hnl),
              candLines_step hv hnl, hdrop]
      · have hile : i ≤ u.length := findSub?_some_le hfind
        have hfinduv : findSub? UI_EVENT_MARKER (u ++ v) = some i :=
          findSub?_append_of_some v hfind
        have hdropuv : (u ++ v).drop i = u.drop i ++ v :=
          drop_append_le u v hile
        rcases hnl : findChar? '\n' (u.drop i) with _ | n
        · -- marker found in `u` but the newline is not in `u`
          simp only [scanF, hfind, hnl, List.nil_append]
          have hlead0 : leadsWith UI_EVENT_MARKER (u.drop i ++ v) = true :=
            leadsWith_append_of v (findSub?_some_leads hfind)
          have hfind0 : findSub? UI_EVENT_MARKER (u.drop i ++ v) = some 0 :=
            findSub?_of_leads hlead0
          have hnluv := findChar?_append_of_none v hnl
          rcases hnv : findChar? '\n' v with _ | m
          · rw [hnv] at hnluv; simp only [Option.map_none'] at hnluv
            rw [candLines_no_newline hfinduv (by rw [hdropuv]; exact hnluv),
              candLines_no_newline hfind0 (by simpa using hnluv)]
          · rw [hnv] at hnluv; simp only [Option.map_some'] at hnluv
            rw [candLines_step hfinduv (by rw [hdropuv]; exact hnluv),
              candLines_step hfind0 (by simpa using hnluv), hdropuv]
            simp
        · -- a whole candidate line sits inside `u`
          have hn := findChar?_lt hnl
          have hn1 : n + 1 ≤ (u.drop i).length := by omega
          have hnluv : findChar? '\n' ((u ++ v).drop i) = some n := by
            rw [hdropuv]; exact findChar?_append_of_some v hnl
          have hline : ((u ++ v).drop i).take n = (u.drop i).take n := by
            rw [hdropuv]; exact take_append_le _ v (by omega)
          have hrest : ((u ++ v).drop i).drop (n + 1) =
              (u.drop i).drop (n + 1) ++ v := by
            rw [hdropuv]; exact drop_append_le _ v hn1
          have hsuffix : ∃ w, u = w ++ (u.drop i).drop (n + 1) := by
            refine ⟨u.take i ++ (u.drop i).take (n + 1), ?_⟩
            rw [List.append_assoc, List.take_append_drop, List.take_append_drop]
          have hrlen : ((u.drop i).drop (n + 1)).length < fuel := by
            have := line_rest_lt hnl
            omega
          rw [candLines_step hfinduv hnluv, hline, hrest]
          simp only [scanF, hfind, hnl]
          rw [ih ((u.drop i).drop (n + 1)) v hrlen
            (stradB_of_suffix hsuffix hstr)]
          rfl

/-- Shifting the initial text buffer: when every candidate line that will be
consumed decodes successfully, a pending text buffer only prefixes the text
output — it does not change the final raw buffer.  (Without the decode
hypothesis this fails: a failed candidate line is re-emitted as a text frame
*ahead* of the pending text buffer.) -/
theorem pushLoopF_tb_shift (jp : List Char → Option Json) :
    ∀ fuel buf tb,
      (∀ l ∈ (scanF fuel buf).1, (parseLLMUIEvent jp l).isSome = true) →
      (pushLoopF jp fuel buf tb).2.buffer = (pushLoopF jp fuel buf []).2.buffer ∧
      iTextConcat (pushLoopF jp fuel buf tb).1 ++
          (pushLoopF jp fuel buf tb).2.textBuffer =
        tb ++ (iTextConcat (pushLoopF jp fuel buf []).1 ++
          (pushLoopF jp fuel buf []).2.textBuffer) := by
  intro fuel
  induction fuel with
  | zero => intro buf tb hdec; simp [pushLoopF, iTextConcat]
  | succ fuel ih =>
      intro buf tb hdec
      rcases hfind : findSub? UI_EVENT_MARKER buf with _ | i
      · simp only [pushLoopF, hfind]
        by_cases h1 : shouldFlush (tb ++ buf) = true <;>
          by_cases h2 : shouldFlush buf = true <;>
            simp [h1, h2, iTextConcat]
      · rcases hnl : findChar? '\n' (buf.drop i) with _ | n
        · simp only [pushLoopF, hfind, hnl]
          by_cases hi : 0 < i <;> simp [hi, iTextConcat]
        · have hdec' : ∀ l ∈ (scanF fuel ((buf.drop i).drop (n + 1))).1,
              (parseLLMUIEvent jp l).isSome = true := by
            intro l hl
            exact hdec l (by simp only [scanF, hfind, hnl]; exact List.mem_cons_of_mem _ hl)
          have hline : (parseLLMUIEvent jp ((buf.drop i).take n)).isSome = true :=
            hdec _ (by simp only [scanF, hfind, hnl]; exact List.mem_cons_self _ _)
          obtain ⟨evt, hev⟩ := Option.isSome_iff_exists.mp hline
          simp only [pushLoopF, hfind, hnl, hev]
          by_cases hi : 0 < i
          · simp [hi, iTextConcat, iTextConcat_append, List.append_assoc]
          · have h := ih ((buf.drop i).drop (n + 1)) tb hdec'
            simpa [hi, iTextConcat, iTextConcat_append, List.append_assoc] using h

theorem pushLoopF_step_none {buf : List Char}
    (jp : List Char → Option Json) (fuel : Nat) (tb : List Char)
    (hfind : findSub? UI_EVENT_MARKER buf = none) :
    pushLoopF jp (fuel + 1) buf tb =
      if shouldFlush (tb ++ buf) = true then
        ([IFrame.text (tb ++ buf)], ⟨[], []⟩)
      else ([], ⟨[], tb ++ buf⟩) := by
  simp [pushLoopF, hfind]

theorem pushLoopF_step_wait {buf : List Char} {i : Nat}
    (jp : List Char → Option Json) (fuel : Nat) (tb : List Char)
    (hfind : findSub? UI_EVENT_MARKER buf = some i)
    (hnl : findChar? '\n' (buf.drop i) = none) :
    pushLoopF jp (fuel + 1) buf tb =
      ((if 0 < i then [IFrame.text (tb ++ buf.take i)] else []),
       ⟨buf.drop i, if 0 < i then [] else tb⟩) := by
  simp [pushLoopF, hfind, hnl]

theorem pushLoopF_step_line {buf : List Char} {i n : Nat}
    (jp : List Char → Option Json) (fuel : Nat) (tb : List Char)
    (hfind : findSub? UI_EVENT_MARKER buf = some i)
    (hnl : findChar? '\n' (buf.drop i) = some n) :
    pushLoopF jp (fuel + 1) buf tb =
      ((if 0 < i then [IFrame.text (tb ++ buf.take i)] else []) ++
        (match parseLLMUIEvent jp ((buf.drop i).take n) with
          | some evt => IFrame.event ((buf.drop i).take n) evt
          | none => IFrame.failedLine ((buf.drop i).take n)) ::
        (pushLoopF jp fuel ((buf.drop i).drop (n + 1))
          (if 0 < i then [] else tb)).1,
       (pushLoopF jp fuel ((buf.drop i).drop (n + 1))
          (if 0 < i then [] else tb)).2) := by
  simp [pushLoopF, hfind, hnl]

theorem stradB_nil_right (pat u : List Char) : stradB pat u [] = false := by
  rw [stradB_eq_false_iff]
  intro k hk hklen hcon
  have := leadsWith_length hcon.2
  simp only [List.length_nil, List.length_drop] at this
  omega

/-- The scan residual is a suffix of the input buffer. -/
theorem scanF_resid_suffix :
    ∀ fuel buf, ∃ w, buf = w ++ (scanF fuel buf).2 := by
  intro fuel
  induction fuel with
  | zero => intro buf; exact ⟨[], rfl⟩
  | succ fuel ih =>
      intro buf
      rcases hfind : findSub? UI_EVENT_MARKER buf with _ | i
      · exact ⟨buf, by simp [scanF, hfind]⟩
      · rcases hnl : findChar? '\n' (buf.drop i) with _ | n
        · exact ⟨buf.take i, by simp [scanF, hfind, hnl]⟩
        · obtain ⟨w, hw⟩ := ih ((buf.drop i).drop (n + 1))
          refine ⟨buf.take i ++ ((buf.drop i).take n ++ '\n' :: w), ?_⟩
          simp only [scanF, hfind, hnl]
          have hw2 : buf.drop i =
              (buf.drop i).take n ++
                '\n' :: (w ++ (scanF fuel ((buf.drop i).drop (n + 1))).2) := by
            conv_lhs => rw [findChar?_decomp hnl]
            rw [← hw]
          conv_lhs => rw [← List.take_append_drop i buf, hw2]
          simp [List.append_assoc]

theorem append_shuffle {A B C D : List Char} (h : A ++ B = C) :
    A ++ (B ++ D) = C ++ D := by
  rw [← List.append_assoc, h]

/-- One-boundary composition: pushing `u ++ v` in one piece agrees (same
final raw buffer, same concatenated text output with pending text appended)
with pushing `u` and then pushing the resulting state's buffer extended by
`v`, provided no marker occurrence straddles the `u`–`v` boundary and every
candidate line of `u ++ v` decodes successfully. -/
theorem pushLoopF_append (jp : List Char → Option Json) :
    ∀ fuel u v tb,
      (u ++ v).length < fuel →
      stradB UI_EVENT_MARKER u v = false →
      (∀ l ∈ candLines (u ++ v), (parseLLMUIEvent jp l).isSome = true) →
      (pushLoopF jp fuel (u ++ v) tb).2.buffer =
        (pushLoopF jp fuel ((pushLoopF jp fuel u tb).2.buffer ++ v)
          (pushLoopF jp fuel u tb).2.textBuffer).2.buffer ∧
      iTextConcat (pushLoopF jp fuel (u ++ v) tb).1 ++
          (pushLoopF jp fuel (u ++ v) tb).2.textBuffer =
        iTextConcat (pushLoopF jp fuel u tb).1 ++
          (iTextConcat (pushLoopF jp fuel ((pushLoopF jp fuel u tb).2.buffer ++ v)
              (pushLoopF jp fuel u tb).2.textBuffer).1 ++
            (pushLoopF jp fuel ((pushLoopF jp fuel u tb).2.buffer ++ v)
              (pushLoopF jp fuel u tb).2.textBuffer).2.textBuffer) := by
  intro fuel
  induction fuel with
  | zero => intro u v tb hlen hstr hdec; exact absurd hlen (by omega)
  | succ fuel ih =>
      intro u v tb hlen hstr hdec
      rcases hfind : findSub? UI_EVENT_MARKER u with _ | i
      · -- no marker occurrence in u: the u-run moves u into the text buffer
        have hbuf1 : (pushLoopF jp (fuel + 1) u tb).2.buffer = [] := by
          rw [pushLoopF_step_none jp fuel tb hfind]
          by_cases h : shouldFlush (tb ++ u) = true <;> simp [h]
        have hsum1 : iTextConcat (pushLoopF jp (fuel + 1) u tb).1 ++
            (pushLoopF jp (fuel + 1) u tb).2.textBuffer = tb ++ u := by
          rw [pushLoopF_step_none jp fuel tb hfind]
          by_cases h : shouldFlush (tb ++ u) = true <;> simp [h, iTextConcat]
        rw [hbuf1]
        simp only [List.nil_append]
        set tb2 := (pushLoopF jp (fuel + 1) u tb).2.textBuffer with htb2
        have huv := findSub?_append_of_none v hfind hstr
        rcases hv : findSub? UI_EVENT_MARKER v with _ | m
        · -- no marker anywhere
          rw [hv] at huv; simp only [Option.map_none'] at huv
          have houter : iTextConcat (pushLoopF jp (fuel + 1) (u ++ v) tb).1 ++
              (pushLoopF jp (fuel + 1) (u ++ v) tb).2.textBuffer = tb ++ (u ++ v) := by
            rw [pushLoopF_step_none jp fuel tb huv]
            by_cases h : shouldFlush (tb ++ (u ++ v)) = true <;> simp [h, iTextConcat]
          have houterbuf : (pushLoopF jp (fuel + 1) (u ++ v) tb).2.buffer = [] := by
            rw [pushLoopF_step_none jp fuel tb huv]
            by_cases h : shouldFlush (tb ++ (u ++ v)) = true <;> simp [h]
          have hinner : iTextConcat (pushLoopF jp (fuel + 1) v tb2).1 ++
              (pushLoopF jp (fuel + 1) v tb2).2.textBuffer = tb2 ++ v := by
            rw [pushLoopF_step_none jp fuel tb2 hv]
            by_cases h : shouldFlush (tb2 ++ v) = true <;> simp [h, iTextConcat]
          have hinnerbuf : (pushLoopF jp (fuel + 1) v tb2).2.buffer = [] := by
            rw [pushLoopF_step_none jp fuel tb2 hv]
            by_cases h : shouldFlush (tb2 ++ v) = true <;> simp [h]
          refine ⟨by rw [houterbuf, hinnerbuf], ?_⟩
          rw [houter, hinner, append_shuffle hsum1, List.append_assoc]
        · -- first marker of u ++ v lies in v
          rw [hv] at huv; simp only [Option.map_some'] at huv
          have hdropuv2 : (u ++ v).drop (u.length + m) = v.drop m :=
            drop_append_add u v m
          have htakeuv : (u ++ v).take (u.length + m) = u ++ v.take m :=
            List.take_append m
          rcases hnl2 : findChar? '\n' (v.drop m) with _ | n2
          · -- marker but no newline yet
            rw [pushLoopF_step_wait jp fuel tb huv (by rw [hdropuv2]; exact hnl2)]
            by_cases hm : 0 < m
            · rw [pushLoopF_step_wait jp fuel tb2 hv hnl2]
              have him : 0 < u.length + m := by omega
              refine ⟨by simp [him, hm, hdropuv2], ?_⟩
              simp only [him, hm, if_pos, iTextConcat, htakeuv, List.append_nil]
              simp [append_shuffle hsum1, List.append_assoc]
            · have hm0 : m = 0 := by omega
              subst hm0
              rw [pushLoopF_step_wait jp fuel tb2 hv hnl2]
              by_cases hu0 : 0 < u.length
              · refine ⟨by simp [hu0, hdropuv2], ?_⟩
                simp [hu0, List.take_left, iTextConcat, hsum1]
              · -- u = [] and m = 0
                have hu : u = [] := by
                  cases u with
                  | nil => rfl
                  | cons a u => simp at hu0
                subst hu
                refine ⟨by simp, ?_⟩
                simp only [List.nil_append, List.append_nil] at hsum1 ⊢
                simp [iTextConcat, hsum1]
          · -- a candidate line completes inside v
            have hnluv2 : findChar? '\n' ((u ++ v).drop (u.length + m)) = some n2 := by
              rw [hdropuv2]; exact hnl2
            rw [pushLoopF_step_line jp fuel tb huv hnluv2, hdropuv2]
            have hrest_lt : ((v.drop m).drop (n2 + 1)).length < v.length :=
              line_rest_lt hnl2
            have hcand : candLines (u ++ v) =
                (v.drop m).take n2 ::
                  candLines ((v.drop m).drop (n2 + 1)) := by
              have h := candLines_step huv hnluv2
              rw [hdropuv2] at h
              exact h
            by_cases hm : 0 < m
            · rw [pushLoopF_step_line jp fuel tb2 hv hnl2]
              have him : 0 < u.length + m := by omega
              constructor
              · simp [him, hm]
              · cases hev : parseLLMUIEvent jp ((v.drop m).take n2) <;>
                  · simp only [hev, him, hm, if_pos, iTextConcat_append,
                      iTextConcat, htakeuv, List.append_nil, List.nil_append,
                      List.append_assoc]
                    simp [append_shuffle hsum1, List.append_assoc]
            · have hm0 : m = 0 := by omega
              subst hm0
              simp only [List.drop_zero, Nat.add_zero] at hnl2 hrest_lt hcand
              rw [pushLoopF_step_line jp fuel tb2 hv hnl2]
              -- the line must decode: otherwise its text frame overtakes tb2
              have hev' : (parseLLMUIEvent jp (v.take n2)).isSome = true := by
                apply hdec
                rw [hcand]
                exact List.mem_cons_self _ _
              obtain ⟨evt, hev⟩ := Option.isSome_iff_exists.mp hev'
              have hvlen : v.length ≤ fuel := by
                simp only [List.length_append] at hlen
                omega
              have hscan_dec : ∀ l ∈ (scanF fuel (v.drop (n2 + 1))).1,
                  (parseLLMUIEvent jp l).isSome = true := by
                intro l hl
                apply hdec
                rw [hcand]
                apply List.mem_cons_of_mem
                unfold candLines
                rw [scanF_fuel_irrel ((v.drop (n2 + 1)).length + 1) fuel
                  (v.drop (n2 + 1)) (by omega) (by omega)]
                exact hl
              have hL2tb2 := pushLoopF_tb_shift jp fuel (v.drop (n2 + 1)) tb2
                hscan_dec
              have hL2tb := pushLoopF_tb_shift jp fuel (v.drop (n2 + 1)) tb
                hscan_dec
              simp only [List.drop_zero, Nat.add_zero, hev, if_neg hm]
              constructor
              · by_cases hu0 : 0 < u.length
                · rw [if_pos hu0]
                  exact hL2tb2.1.symm
                · rw [if_neg hu0]
                  rw [hL2tb.1]
                  exact hL2tb2.1.symm
              · by_cases hu0 : 0 < u.length
                · rw [if_pos hu0, if_pos hu0]
                  simp only [iTextConcat_append, iTextConcat, List.take_left,
                    List.nil_append, List.append_nil, List.append_assoc]
                  rw [hL2tb2.2, append_shuffle hsum1, List.append_assoc]
                · have hu : u = [] := by
                    cases u with
                    | nil => rfl
                    | cons a u => simp at hu0
                  subst hu
                  simp only [List.nil_append, List.append_nil] at hsum1
                  rw [if_neg hu0, if_neg hu0]
                  simp only [iTextConcat_append, iTextConcat, List.nil_append,
                    List.append_assoc]
                  rw [hL2tb.2, hL2tb2.2, append_shuffle hsum1]
      · -- marker occurrence inside u
        have hile : i ≤ u.length := findSub?_some_le hfind
        have hfinduv : findSub? UI_EVENT_MARKER (u ++ v) = some i :=
          findSub?_append_of_some v hfind
        have htake : (u ++ v).take i = u.take i := take_append_le u v hile
        have hdropuv : (u ++ v).drop i = u.drop i ++ v := drop_append_le u v hile
        rcases hnl : findChar? '\n' (u.drop i) with _ | n
        · -- the candidate's newline has not arrived within u
          rw [pushLoopF_step_wait jp fuel tb hfind hnl]
          have hlead : leadsWith UI_EVENT_MARKER (u.drop i ++ v) = true :=
            leadsWith_append_of v (findSub?_some_leads hfind)
          have hfind0 : findSub? UI_EVENT_MARKER (u.drop i ++ v) = some 0 :=
            findSub?_of_leads hlead
          have hnluv := findChar?_append_of_none v hnl
          rcases hnv : findChar? '\n' v with _ | m2
          · rw [hnv] at hnluv; simp only [Option.map_none'] at hnluv
            rw [pushLoopF_step_wait jp fuel tb hfinduv (by rw [hdropuv]; exact hnluv)]
            rw [pushLoopF_step_wait jp fuel _ hfind0 (by simpa using hnluv)]
            by_cases hi : 0 < i <;>
              simp [hi, iTextConcat, htake, hdropuv, List.append_assoc]
          · rw [hnv] at hnluv; simp only [Option.map_some'] at hnluv
            have hnluv' : findChar? '\n' ((u ++ v).drop i) =
                some ((u.drop i).length + m2) := by
              rw [hdropuv]; exact hnluv
            rw [pushLoopF_step_line jp fuel tb hfinduv hnluv']
            rw [pushLoopF_step_line jp fuel _ hfind0
              (by rw [List.drop_zero]; exact hnluv)]
            rw [hdropuv]
            by_cases hi : 0 < i <;>
              cases hev : parseLLMUIEvent jp
                  ((u.drop i ++ v).take ((u.drop i).length + m2)) <;>
                · simp only [List.length_drop] at hev
                  simp [hi, hev, iTextConcat_append, iTextConcat, htake,
                    List.append_assoc]
        · -- a full candidate line sits inside u: both runs consume it
          have hn := findChar?_lt hnl
          have hnluv2 : findChar? '\n' ((u ++ v).drop i) = some n := by
            rw [hdropuv]; exact findChar?_append_of_some v hnl
          have hlineeq : ((u ++ v).drop i).take n = (u.drop i).take n := by
            rw [hdropuv]; exact take_append_le _ v (by omega)
          have hresteq : ((u ++ v).drop i).drop (n + 1) =
              (u.drop i).drop (n + 1) ++ v := by
            rw [hdropuv]; exact drop_append_le _ v (by omega)
          rw [pushLoopF_step_line jp fuel tb hfinduv hnluv2,
            pushLoopF_step_line jp fuel tb hfind hnl, hlineeq, hresteq, htake]
          have hcand : candLines (u ++ v) =
              (u.drop i).take n :: candLines ((u.drop i).drop (n + 1) ++ v) := by
            rw [candLines_step hfinduv hnluv2, hlineeq, hresteq]
          have hev' : (parseLLMUIEvent jp ((u.drop i).take n)).isSome = true := by
            apply hdec
            rw [hcand]
            exact List.mem_cons_self _ _
          obtain ⟨evt, hev⟩ := Option.isSome_iff_exists.mp hev'
          have hrestu_lt : ((u.drop i).drop (n + 1)).length < u.length :=
            line_rest_lt hnl
          have hrlen : ((u.drop i).drop (n + 1) ++ v).length < fuel := by
            simp only [List.length_append] at hlen ⊢
            omega
          have hsuf : ∃ w, u = w ++ (u.drop i).drop (n + 1) := by
            refine ⟨u.take i ++ (u.drop i).take (n + 1), ?_⟩
            rw [List.append_assoc, List.take_append_drop, List.take_append_drop]
          have hIH := ih ((u.drop i).drop (n + 1)) v (if 0 < i then [] else tb)
            hrlen (stradB_of_suffix hsuf hstr)
            (fun l hl => hdec l (by rw [hcand]; exact List.mem_cons_of_mem _ hl))
          have hbufsuf :
              ((pushLoopF jp fuel ((u.drop i).drop (n + 1))
                (if 0 < i then [] else tb)).2.buffer).length ≤
              ((u.drop i).drop (n + 1)).length := by
            rw [pushLoopF_buffer_eq_scan]
            obtain ⟨w, hw⟩ := scanF_resid_suffix fuel ((u.drop i).drop (n + 1))
            have := congrArg List.length hw
            simp only [List.length_append] at this
            omega
          have hinner_fuel :
              pushLoopF jp (fuel + 1)
                ((pushLoopF jp fuel ((u.drop i).drop (n + 1))
                  (if 0 < i then [] else tb)).2.buffer ++ v)
                (pushLoopF jp fuel ((u.drop i).drop (n + 1))
                  (if 0 < i then [] else tb)).2.textBuffer =
              pushLoopF jp fuel
                ((pushLoopF jp fuel ((u.drop i).drop (n + 1))
                  (if 0 < i then [] else tb)).2.buffer ++ v)
                (pushLoopF jp fuel ((u.drop i).drop (n + 1))
                  (if 0 < i then [] else tb)).2.textBuffer := by
            apply pushLoopF_fuel_irrel
            · simp only [List.length_append] at hrlen ⊢
              omega
            · simp only [List.length_append] at hrlen ⊢
              omega
          rw [hev, hinner_fuel]
          by_cases hi : 0 < i
          · simp only [if_pos hi] at hIH ⊢
            refine ⟨hIH.1, ?_⟩
            simp only [iTextConcat_append, iTextConcat, List.append_assoc,
              List.nil_append, List.append_nil]
            rw [hIH.2]
          · simp only [if_neg hi] at hIH ⊢
            refine ⟨hIH.1, ?_⟩
            simp only [iTextConcat_append, iTextConcat, List.append_assoc,
              List.nil_append, List.append_nil]
            rw [hIH.2]

/-- Pushing a list of chunks from a residual-shaped state produces the same
total text (emitted text frames, then pending text, then raw buffer — which
is what `flush` appends) as pushing the whole remaining stream at once,
provided no chunk boundary splits a marker occurrence and all candidate
lines decode. -/
theorem runPushesI_single (jp : List Char → Option Json) :
    ∀ (chunks : List (List Char)) (σ : ParserState),
      (σ.buffer = [] ∨ (leadsWith UI_EVENT_MARKER σ.buffer = true ∧
        findChar? '\n' σ.buffer = none)) →
      (∀ i, 0 < i → i < chunks.length →
        stradB UI_EVENT_MARKER (σ.buffer ++ ((chunks.take i).flatten))
          ((chunks.drop i).flatten) = false) →
      (∀ l ∈ candLines (σ.buffer ++ chunks.flatten),
        (parseLLMUIEvent jp l).isSome = true) →
      iTextConcat (runPushesI jp σ chunks).1 ++
        ((runPushesI jp σ chunks).2.textBuffer ++
          (runPushesI jp σ chunks).2.buffer) =
      iTextConcat (pushLoopF jp ((σ.buffer ++ chunks.flatten).length + 1)
          (σ.buffer ++ chunks.flatten) σ.textBuffer).1 ++
        ((pushLoopF jp ((σ.buffer ++ chunks.flatten).length + 1)
            (σ.buffer ++ chunks.flatten) σ.textBuffer).2.textBuffer ++
          (pushLoopF jp ((σ.buffer ++ chunks.flatten).length + 1)
            (σ.buffer ++ chunks.flatten) σ.textBuffer).2.buffer) := by
  intro chunks
  induction chunks with
  | nil =>
      intro σ hres hbok hdec
      simp only [runPushesI, List.flatten_nil, List.append_nil, iTextConcat]
      rcases hres with hres | hres
      · rw [hres]
        have hfind : findSub? UI_EVENT_MARKER ([] : List Char) = none := rfl
        rw [show ([] : List Char).length + 1 = 0 + 1 from rfl]
        rw [pushLoopF_step_none jp 0 σ.textBuffer hfind]
        simp only [List.append_nil]
        by_cases h : shouldFlush σ.textBuffer = true <;> simp [h, iTextConcat]
      · have hfind : findSub? UI_EVENT_MARKER σ.buffer = some 0 :=
          findSub?_of_leads hres.1
        have hnl : findChar? '\n' (σ.buffer.drop 0) = none := by
          rw [List.drop_zero]; exact hres.2
        rw [pushLoopF_step_wait jp σ.buffer.length σ.textBuffer hfind hnl]
        simp [iTextConcat]
  | cons c rest ih =>
      intro σ hres hbok hdec
      by_cases hc : c = []
      · subst hc
        have hid : pushI jp σ [] = ([], σ) := by simp [pushI]
        have hbok' : ∀ i, 0 < i → i < rest.length →
            stradB UI_EVENT_MARKER (σ.buffer ++ (rest.take i).flatten)
              ((rest.drop i).flatten) = false := by
          intro i hi hilen
          have h := hbok (i + 1) (by omega) (by simp; omega)
          simpa using h
        have hdec' : ∀ l ∈ candLines (σ.buffer ++ rest.flatten),
            (parseLLMUIEvent jp l).isSome = true := by
          intro l hl
          apply hdec
          simpa using hl
        have h := ih σ hres hbok' hdec'
        simp only [runPushesI, hid, List.flatten_cons, List.nil_append,
          iTextConcat_append, iTextConcat]
        exact h
      · -- a real chunk: compose via pushLoopF_append
        have hlen_u_lt : (σ.buffer ++ c).length <
            ((σ.buffer ++ c) ++ rest.flatten).length + 1 := by
          have e1 := List.length_append (σ.buffer ++ c) rest.flatten
          omega
        have hpushI : pushI jp σ c =
            pushLoopF jp (((σ.buffer ++ c) ++ rest.flatten).length + 1)
              (σ.buffer ++ c) σ.textBuffer := by
          unfold pushI
          rw [if_neg hc]
          exact pushLoopF_fuel_irrel jp _ _ _ _ (by omega) hlen_u_lt
        have harg : σ.buffer ++ (c :: rest).flatten =
            (σ.buffer ++ c) ++ rest.flatten := by
          simp [List.append_assoc]
        have hstr1 : stradB UI_EVENT_MARKER (σ.buffer ++ c) rest.flatten = false := by
          cases rest with
          | nil => simp [stradB_nil_right]
          | cons r rs =>
              have h := hbok 1 (by omega) (by simp only [List.length_cons]; omega)
              simpa using h
        have hdec1 : ∀ l ∈ candLines ((σ.buffer ++ c) ++ rest.flatten),
            (parseLLMUIEvent jp l).isSome = true := by
          intro l hl
          apply hdec
          rw [harg]
          exact hl
        have hL1 := pushLoopF_append jp
          (((σ.buffer ++ c) ++ rest.flatten).length + 1)
          (σ.buffer ++ c) rest.flatten σ.textBuffer (by omega) hstr1 hdec1
        -- facts about the intermediate state
        have hbufscan : (pushLoopF jp (((σ.buffer ++ c) ++ rest.flatten).length + 1)
            (σ.buffer ++ c) σ.textBuffer).2.buffer =
            (scanF ((σ.buffer ++ c).length + 1) (σ.buffer ++ c)).2 := by
          rw [pushLoopF_buffer_eq_scan]
          exact congrArg Prod.snd (scanF_fuel_irrel _ _ _
            (by have e1 := List.length_append (σ.buffer ++ c) rest.flatten; omega)
            (by omega))
        have hsuf1 : ∃ w, σ.buffer ++ c =
            w ++ (pushLoopF jp (((σ.buffer ++ c) ++ rest.flatten).length + 1)
              (σ.buffer ++ c) σ.textBuffer).2.buffer := by
          rw [hbufscan]
          exact scanF_resid_suffix _ _
        have hsuflen : ((pushLoopF jp (((σ.buffer ++ c) ++ rest.flatten).length + 1)
            (σ.buffer ++ c) σ.textBuffer).2.buffer).length ≤
            (σ.buffer ++ c).length := by
          obtain ⟨w, hw⟩ := hsuf1
          have h1 := congrArg List.length hw
          rw [List.length_append, List.length_append] at h1
          have e2 := List.length_append σ.buffer c
          omega
        have hres1 : (pushLoopF jp (((σ.buffer ++ c) ++ rest.flatten).length + 1)
            (σ.buffer ++ c) σ.textBuffer).2.buffer = [] ∨
            (leadsWith UI_EVENT_MARKER
              (pushLoopF jp (((σ.buffer ++ c) ++ rest.flatten).length + 1)
                (σ.buffer ++ c) σ.textBuffer).2.buffer = true ∧
             findChar? '\n'
              (pushLoopF jp (((σ.buffer ++ c) ++ rest.flatten).length + 1)
                (σ.buffer ++ c) σ.textBuffer).2.buffer = none) := by
          rcases pushLoopF_resid_shape jp
            (((σ.buffer ++ c) ++ rest.flatten).length + 1)
            (σ.buffer ++ c) σ.textBuffer with h | h | h
          · exact Or.inl h
          · exact Or.inr h
          · exfalso
            have e1 := List.length_append (σ.buffer ++ c) rest.flatten
            omega
        have hbok1 : ∀ i, 0 < i → i < rest.length →
            stradB UI_EVENT_MARKER
              ((pushLoopF jp (((σ.buffer ++ c) ++ rest.flatten).length + 1)
                (σ.buffer ++ c) σ.textBuffer).2.buffer ++ (rest.take i).flatten)
              ((rest.drop i).flatten) = false := by
          intro i hi hilen
          have h := hbok (i + 1) (by omega) (by simp; omega)
          have harg2 : σ.buffer ++ ((c :: rest).take (i + 1)).flatten =
              (σ.buffer ++ c) ++ (rest.take i).flatten := by
            simp [List.append_assoc]
          have harg3 : ((c :: rest).drop (i + 1)).flatten = (rest.drop i).flatten := by
            simp
          rw [harg2, harg3] at h
          obtain ⟨w, hw⟩ := hsuf1
          exact stradB_of_suffix
            ⟨w, by rw [← List.append_assoc, ← hw]⟩ h
        have hdec2 : ∀ l ∈ candLines
            ((pushLoopF jp (((σ.buffer ++ c) ++ rest.flatten).length + 1)
              (σ.buffer ++ c) σ.textBuffer).2.buffer ++ rest.flatten),
            (parseLLMUIEvent jp l).isSome = true := by
          intro l hl
          apply hdec1
          rw [candLines_append ((σ.buffer ++ c).length + 1) (σ.buffer ++ c)
            rest.flatten (by omega) hstr1]
          apply List.mem_append_right
          rw [hbufscan] at hl
          exact hl
        have hIH := ih (pushLoopF jp (((σ.buffer ++ c) ++ rest.flatten).length + 1)
            (σ.buffer ++ c) σ.textBuffer).2 hres1 hbok1 hdec2
        have hinner_fuel :
            pushLoopF jp
              (((pushLoopF jp (((σ.buffer ++ c) ++ rest.flatten).length + 1)
                (σ.buffer ++ c) σ.textBuffer).2.buffer ++ rest.flatten).length + 1)
              ((pushLoopF jp (((σ.buffer ++ c) ++ rest.flatten).length + 1)
                (σ.buffer ++ c) σ.textBuffer).2.buffer ++ rest.flatten)
              (pushLoopF jp (((σ.buffer ++ c) ++ rest.flatten).length + 1)
                (σ.buffer ++ c) σ.textBuffer).2.textBuffer =
            pushLoopF jp (((σ.buffer ++ c) ++ rest.flatten).length + 1)
              ((pushLoopF jp (((σ.buffer ++ c) ++ rest.flatten).length + 1)
                (σ.buffer ++ c) σ.textBuffer).2.buffer ++ rest.flatten)
              (pushLoopF jp (((σ.buffer ++ c) ++ rest.flatten).length + 1)
                (σ.buffer ++ c) σ.textBuffer).2.textBuffer := by
          apply pushLoopF_fuel_irrel
          · omega
          · have e1 := List.length_append
              ((pushLoopF jp (((σ.buffer ++ c) ++ rest.flatten).length + 1)
                (σ.buffer ++ c) σ.textBuffer).2.buffer) rest.flatten
            have e2 := List.length_append (σ.buffer ++ c) rest.flatten
            omega
        simp only [runPushesI, List.flatten_cons]
        rw [hpushI]
        rw [iTextConcat_append, List.append_assoc]
        rw [hIH, hinner_fuel]
        rw [show σ.buffer ++ (c ++ rest.flatten) =
          (σ.buffer ++ c) ++ rest.flatten from (List.append_assoc _ _ _).symm]
        rcases hL1 with ⟨hb1, ht1⟩
        conv_rhs => rw [← List.append_assoc]
        rw [ht1, hb1]
        simp [List.append_assoc]

theorem flushI_text (σ : ParserState) :
    iTextConcat (flushI σ).1 = σ.textBuffer ++ σ.buffer := by
  by_cases h1 : σ.textBuffer = [] <;> by_cases h2 : σ.buffer = [] <;>
    simp [flushI, h1, h2, iTextConcat]

/-- The full observable text of a session is the pushed text plus what
`flush` drains. -/
theorem runStream_total (jp : List Char → Option Json)
    (chunks : List (List Char)) :
    textConcat (runStream jp chunks) =
      iTextConcat (runPushesI jp initState chunks).1 ++
        ((runPushesI jp initState chunks).2.textBuffer ++
          (runPushesI jp initState chunks).2.buffer) := by
  unfold runStream runStreamI
  rw [textConcat_map_erase, iTextConcat_append, flushI_text]

/-- C1 counterexample: chunk-boundary invariance fails when a chunk boundary
falls inside the marker.  Splitting `__UI_EVENT__x\n` as
`__UI_` / `EVENT__x\n` routes the marker into the coalescing text buffer, so
the chunked run emits the full 14 characters as text while the single-push
run treats the line as an event candidate and drops its newline. -/
theorem claim1_counterexample :
    cs "__UI_" ++ cs "EVENT__x\n" = cs "__UI_EVENT__x\n" ∧
    textConcat (runStream jp0 [cs "__UI_", cs "EVENT__x\n"]) ≠
      textConcat (runStream jp0 [cs "__UI_EVENT__x\n"]) := by
  constructor
  · rfl
  · decide

/-- C1 as amended: chunk-boundary invariance holds provided (i) no chunk
boundary falls strictly inside an occurrence of the marker, and (ii) every
candidate event line of the stream decodes successfully.  (Both conditions
are necessary: a split marker is coalesced into text, and a failed candidate
line is re-emitted ahead of pending text, reordering the concatenation.)
Under them, pushing the chunks one at a time followed by `flush` yields the
same concatenation of text-frame values, event frames excluded, as pushing
the whole stream in a single `push` followed by `flush`. -/
theorem claim1_amended_chunk_invariance (jp : List Char → Option Json)
    (chunks : List (List Char))
    (h1 : splitsOkB chunks = true)
    (h2 : allCandidatesDecode jp chunks.flatten = true) :
    textConcat (runStream jp chunks) =
      textConcat (runStream jp [chunks.flatten]) := by
  have hbok : ∀ i, 0 < i → i < chunks.length →
      stradB UI_EVENT_MARKER (chunks.take i).flatten (chunks.drop i).flatten =
        false := by
    intro i hi hlen
    have h := List.all_eq_true.mp h1 i (List.mem_range.mpr hlen)
    rw [Bool.or_eq_true] at h
    rcases h with h | h
    · exact absurd (of_decide_eq_true h) (by omega)
    · simpa using h
  have hdec : ∀ l ∈ candLines chunks.flatten,
      (parseLLMUIEvent jp l).isSome = true := by
    intro l hl
    exact List.all_eq_true.mp h2 l hl
  have hG := runPushesI_single jp chunks initState (Or.inl rfl)
    (by intro i hi hlen
        simpa [initState] using hbok i hi hlen)
    (by intro l hl
        apply hdec
        simpa [initState] using hl)
  have hG2 := runPushesI_single jp [chunks.flatten] initState (Or.inl rfl)
    (by intro i hi hlen
        simp only [List.length_cons, List.length_nil] at hlen
        omega)
    (by intro l hl
        apply hdec
        simpa [initState] using hl)
  rw [runStream_total, runStream_total, hG, hG2]
  simp [initState]

/-- C1 witness: the amended invariance at a concrete three-chunk stream whose
boundaries avoid the marker and whose single event line decodes. -/
theorem claim1_amended_witness :
    textConcat (runStream jpERR
      [cs "ab", cs "__UI_EVENT__\x7b\"type\":\"ERROR\",\"message\":\"x\"\x7d",
       cs "\ncd"]) =
    textConcat (runStream jpERR
      [([cs "ab", cs "__UI_EVENT__\x7b\"type\":\"ERROR\",\"message\":\"x\"\x7d",
         cs "\ncd"] : List (List Char)).flatten]) :=
  claim1_amended_chunk_invariance jpERR
    [cs "ab", cs "__UI_EVENT__\x7b\"type\":\"ERROR\",\"message\":\"x\"\x7d",
     cs "\ncd"]
    (by decide) (by decide)

end ChatBot
